import Mathlib

/-!
Verification of the captures-report generator (`generate_captures_html.py`).

The development shallowly embeds the parsing / ordering / rendering pipeline:
strings are modelled as `List Char` internally with `String` wrappers at the
API boundary; the Python batch renderer and the JavaScript client renderer
embedded in the output document are both translated, as are `parse_captures`,
`parse_notes_markdown`, `apply_order`, the record-rendering part of
`render_html`, `generate_project` and the multi-project driver.
-/

namespace CapturesHtml

/-- The apostrophe character (code point 39), named to keep literals readable. -/
def apos : Char := Char.ofNat 39

/-- Whitespace recognised by Python `str.strip()` and the `\s` class of the
`re` module on the character sets that can occur in these logs (ASCII
whitespace, the C1 separators, NEL and NBSP). -/
def pyIsSpace (c : Char) : Bool :=
  c == ' ' || c == '\t' || c == '\n' || c == '\r' || c == '\x0b' || c == '\x0c' ||
  c == '\x1c' || c == '\x1d' || c == '\x1e' || c == '\x1f' ||
  c == Char.ofNat 133 || c == Char.ofNat 160

/-- Python `str.strip()`: drop leading and trailing whitespace. -/
def pyStrip (s : List Char) : List Char :=
  ((s.dropWhile pyIsSpace).reverse.dropWhile pyIsSpace).reverse

/-- Line-break characters recognised by Python `str.splitlines()`. -/
def isLineBreak (c : Char) : Bool :=
  c == '\n' || c == '\r' || c == '\x0b' || c == '\x0c' ||
  c == '\x1c' || c == '\x1d' || c == '\x1e' ||
  c == Char.ofNat 133 || c == Char.ofNat 8232 || c == Char.ofNat 8233

/-- Worker for `pySplitlines`; `acc` holds the current line reversed. -/
def splitlinesGo (acc : List Char) : List Char → List (List Char)
  | [] => if acc.isEmpty then [] else [acc.reverse]
  | '\r' :: '\n' :: rest => acc.reverse :: splitlinesGo [] rest
  | c :: rest =>
    if isLineBreak c then acc.reverse :: splitlinesGo [] rest
    else splitlinesGo (c :: acc) rest

/-- Python `str.splitlines()`: split at line breaks (treating `\r\n` as one
break), with no trailing empty line. -/
def pySplitlines (s : List Char) : List (List Char) := splitlinesGo [] s

/-- Worker for `jsSplitLines`. -/
def jsSplitGo (acc : List Char) : List Char → List (List Char)
  | [] => [acc.reverse]
  | '\r' :: '\n' :: rest => acc.reverse :: jsSplitGo [] rest
  | '\n' :: rest => acc.reverse :: jsSplitGo [] rest
  | c :: rest => jsSplitGo (c :: acc) rest

/-- JavaScript `String(raw).split(/\r?\n/)`: splits at `\n` or `\r\n` only
(a lone `\r` does not split) and keeps trailing empty fields. -/
def jsSplitLines (s : List Char) : List (List Char) := jsSplitGo [] s

/-- Whitespace recognised by JavaScript `String.prototype.trim` on the
character sets that can occur here. -/
def jsIsSpace (c : Char) : Bool :=
  c == ' ' || c == '\t' || c == '\n' || c == '\r' || c == '\x0b' || c == '\x0c' ||
  c == Char.ofNat 160 || c == Char.ofNat 65279 ||
  c == Char.ofNat 8232 || c == Char.ofNat 8233

/-- JavaScript `trim()`. -/
def jsTrim (s : List Char) : List Char :=
  ((s.dropWhile jsIsSpace).reverse.dropWhile jsIsSpace).reverse

/-- One character of Python `html.escape(value)` (the chained `str.replace`
calls of `html.escape` collapse to this per-character map because no
replacement output contains a character replaced by a later step, `&` being
replaced first).  Note `'` becomes the hexadecimal entity `&#x27;`. -/
def pyEscapeChar (c : Char) : List Char :=
  if c == '&' then "&amp;".data
  else if c == '<' then "&lt;".data
  else if c == '>' then "&gt;".data
  else if c == '"' then "&quot;".data
  else if c == apos then "&#x27;".data
  else [c]

/-- Python `html.escape`. -/
def pyEscape (s : List Char) : List Char := (s.map pyEscapeChar).flatten

/-- One character of the JavaScript `escapeHtml` helper (five chained
`String.prototype.replace` calls with `&` first, collapsing to a
per-character map for the same reason as `pyEscapeChar`).  Note `'` becomes
the decimal entity `&#39;`, unlike the Python side. -/
def jsEscapeChar (c : Char) : List Char :=
  if c == '&' then "&amp;".data
  else if c == '<' then "&lt;".data
  else if c == '>' then "&gt;".data
  else if c == '"' then "&quot;".data
  else if c == apos then "&#39;".data
  else [c]

/-- JavaScript `escapeHtml`. -/
def jsEscape (s : List Char) : List Char := (s.map jsEscapeChar).flatten

/-- Scanner for the closing emphasis marker, after the first inner character
has been accepted: the closing marker is the first `marker` found; a
character rejected by the dot class (`dotExcl`) aborts the match, mirroring
non-greedy `\*(.+?)\*` where `.` does not match line terminators. -/
def findCloseGo (marker : Char) (dotExcl : Char → Bool) (acc : List Char) :
    List Char → Option (List Char × List Char)
  | [] => none
  | c :: rest =>
    if c == marker then some (acc.reverse, rest)
    else if dotExcl c then none
    else findCloseGo marker dotExcl (c :: acc) rest

/-- Search, right after an opening `marker`, for the inner text and the
remainder after the closing `marker`.  The inner text has at least one
character (which may itself be `marker`, as `.+?` matches it), none rejected
by the dot class. -/
def findClose (marker : Char) (dotExcl : Char → Bool) :
    List Char → Option (List Char × List Char)
  | [] => none
  | c :: rest => if dotExcl c then none else findCloseGo marker dotExcl [c] rest

/-- Fuelled worker for `subEmph` (fuel bounds the number of characters still
to examine, so `s.length` is always enough). -/
def subEmphF (marker : Char) (ot ct : List Char) (dotExcl : Char → Bool) :
    Nat → List Char → List Char
  | 0, s => s
  | _ + 1, [] => []
  | fuel + 1, c :: rest =>
    if c == marker then
      match findClose marker dotExcl rest with
      | some (inner, rest') =>
        ot ++ inner ++ ct ++ subEmphF marker ot ct dotExcl fuel rest'
      | none => c :: subEmphF marker ot ct dotExcl fuel rest
    else c :: subEmphF marker ot ct dotExcl fuel rest

/-- `re.sub(r"\*(.+?)\*", r"<strong>\1</strong>", s)` and its `_`/`<em>`
sibling, for a marker character and replacement tag pair: leftmost,
non-greedy, restarting after the replaced text. -/
def subEmph (marker : Char) (ot ct : List Char) (dotExcl : Char → Bool)
    (s : List Char) : List Char :=
  subEmphF marker ot ct dotExcl s.length s

/-- Dot class of Python `re` without `DOTALL`: everything but `\n`. -/
def pyDotExcl (c : Char) : Bool := c == '\n'

/-- Dot class of JavaScript regexps: everything but the line terminators. -/
def jsDotExcl (c : Char) : Bool :=
  c == '\n' || c == '\r' || c == Char.ofNat 8232 || c == Char.ofNat 8233

/-- The nested `inline` helper of the Python `markdown_to_html`: HTML-escape,
then `*…*` to `<strong>`, then `_…_` to `<em>`. -/
def inline (s : List Char) : List Char :=
  subEmph '_' "<em>".data "</em>".data pyDotExcl
    (subEmph '*' "<strong>".data "</strong>".data pyDotExcl (pyEscape s))

/-- The `inline` arrow function of the JavaScript `markdownToHtml`. -/
def jsInline (s : List Char) : List Char :=
  subEmph '_' "<em>".data "</em>".data jsDotExcl
    (subEmph '*' "<strong>".data "</strong>".data jsDotExcl (jsEscape s))

/-- Boolean prefix test on character lists. -/
def leadsWith : List Char → List Char → Bool
  | [], _ => true
  | _ :: _, [] => false
  | p :: ps, c :: cs => p == c && leadsWith ps cs

/-- `flush_para`: a pending paragraph becomes one `<p>` part, the buffered
lines joined by single spaces. -/
def flushPara (inl : List Char → List Char) (para : List (List Char)) :
    List (List Char) :=
  if para.isEmpty then [] else ["<p>".data ++ inl (List.intercalate [' '] para) ++ "</p>".data]

/-- `close_list`: an open list contributes its closing tag. -/
def closeListTag (inList : Bool) : List (List Char) :=
  if inList then ["</ul>".data] else []

/-- The shared line loop of the Python `markdown_to_html` and the JavaScript
`markdownToHtml` (their control flow is line-for-line identical; they differ
only in the inline transform, the strip function and the line splitter, which
are parameters here).  Produces the list of emitted parts. -/
def mdGo (inl : List Char → List Char) (strip' : List Char → List Char)
    (para : List (List Char)) (inList : Bool) : List (List Char) → List (List Char)
  | [] => flushPara inl para ++ closeListTag inList
  | raw :: rest =>
    let line := strip' raw
    if line.isEmpty then
      flushPara inl para ++ closeListTag inList ++ mdGo inl strip' [] false rest
    else if leadsWith "- ".data line then
      flushPara inl para ++ (if inList then [] else ["<ul>".data]) ++
        ["<li>".data ++ inl (line.drop 2) ++ "</li>".data] ++ mdGo inl strip' [] true rest
    else closeListTag inList ++ mdGo inl strip' (para ++ [line]) false rest

/-- Parts emitted by the Python `markdown_to_html` for a text. -/
def mdParts (text : String) : List (List Char) :=
  mdGo inline pyStrip [] false (pySplitlines text.data)

/-- Python `markdown_to_html`: the concatenation of the emitted parts. -/
def markdown_to_html (text : String) : String :=
  ⟨(mdParts text).flatten⟩

/-- The JavaScript `markdownToHtml` embedded in the generated document. -/
def js_markdownToHtml (text : String) : String :=
  ⟨(mdGo jsInline jsTrim [] false (jsSplitLines text.data)).flatten⟩

/-- The backtick character (code point 96). -/
def backtick : Char := Char.ofNat 96

/-- If `p` is a prefix of `s`, the remainder of `s` after it. -/
def dropLead : List Char → List Char → Option (List Char)
  | [], s => some s
  | _ :: _, [] => none
  | p :: ps, c :: cs => if p == c then dropLead ps cs else none

/-- If `p` is a suffix of `s`, the part of `s` before it. -/
def dropTrail (p s : List Char) : Option (List Char) :=
  (dropLead p.reverse s.reverse).map List.reverse

/-- Matcher for the HTML-comment marker regexes
`^<!--\s*KEYWORD\s*(.+?)\s*-->\s*$` (`KEYWORD` is `CAPTURE:` or `NOTE:`),
applied to an already stripped line, returning the captured group.  Because
the line is stripped, the matched `-->` is the final one; the group is the
middle text trimmed, except that a middle consisting only of whitespace
yields a single-space group (the greedy leading `\s*` backtracks by one so
the mandatory `.+?` can take one whitespace character). -/
def matchMarker (keyword : List Char) (line : List Char) : Option (List Char) :=
  match dropLead "<!--".data line with
  | none => none
  | some r1 =>
    match dropLead keyword (r1.dropWhile pyIsSpace) with
    | none => none
    | some r2 =>
      match dropTrail "-->".data r2 with
      | none => none
      | some mid =>
        if mid.isEmpty then none
        else if (pyStrip mid).isEmpty then some [' ']
        else some (pyStrip mid)

/-- Matcher for `NOTE_END_RE = ^<!--\s*END NOTE\s*-->\s*$` on a stripped
line. -/
def matchNoteEnd (line : List Char) : Bool :=
  match dropLead "<!--".data line with
  | none => false
  | some r1 =>
    match dropLead "END NOTE".data (r1.dropWhile pyIsSpace) with
    | none => false
    | some r2 => (r2.dropWhile pyIsSpace) == "-->".data

/-- The three field names of `FIELD_RE`. -/
inductive FieldKey
  | fichier
  | url
  | date
  deriving DecidableEq, Repr

/-- One capture record: the Python side uses a dict with key `id` always
present and the lowercase field keys added as they are parsed. -/
structure Capture where
  id : String
  fichier : Option String := none
  url : Option String := none
  date : Option String := none
  deriving DecidableEq, Repr

/-- Matcher for `FIELD_RE = ^-\s*(Fichier|URL|Date):\s*(.+?)\s*$` on a
stripped line.  A stripped line has no trailing whitespace, so the group is
the text after the colon with leading whitespace dropped, and it must be
non-empty. -/
def matchField (line : List Char) : Option (FieldKey × List Char) :=
  match dropLead "-".data line with
  | none => none
  | some r0 =>
    let r1 := r0.dropWhile pyIsSpace
    let afterKey := fun (kw : List Char) =>
      match dropLead kw r1 with
      | none => none
      | some r2 =>
        let v := r2.dropWhile pyIsSpace
        if v.isEmpty then none else some v
    match afterKey "Fichier:".data with
    | some v => some (.fichier, v)
    | none =>
      match afterKey "URL:".data with
      | some v => some (.url, v)
      | none =>
        match afterKey "Date:".data with
        | some v => some (.date, v)
        | none => none

/-- Strip all leading and trailing backticks (Python `value.strip("`")`). -/
def stripBackticks (s : List Char) : List Char :=
  ((s.dropWhile (· == backtick)).reverse.dropWhile (· == backtick)).reverse

/-- The loop body's field assignment: `value = value.strip()`, backtick
unquoting for `Fichier`, then `current[key.lower()] = value`. -/
def setField (c : Capture) (k : FieldKey) (v : List Char) : Capture :=
  match k with
  | .fichier => { c with fichier := some ⟨stripBackticks (pyStrip v)⟩ }
  | .url => { c with url := some ⟨pyStrip v⟩ }
  | .date => { c with date := some ⟨pyStrip v⟩ }

/-- The scan loop of `parse_captures` over the remaining lines, carrying the
record currently open (Python's `current`); finished records are emitted in
source order and the open record is flushed at end of input. -/
def parseCapturesGo (current : Option Capture) : List (List Char) → List Capture
  | [] =>
    match current with
    | some c => [c]
    | none => []
  | raw :: rest =>
    let line := pyStrip raw
    if line.isEmpty then parseCapturesGo current rest
    else
      match matchMarker "CAPTURE:".data line with
      | some cid =>
        match current with
        | some c => c :: parseCapturesGo (some { id := ⟨cid⟩ }) rest
        | none => parseCapturesGo (some { id := ⟨cid⟩ }) rest
      | none =>
        match matchField line with
        | some (k, v) =>
          match current with
          | some c => parseCapturesGo (some (setField c k v)) rest
          | none => parseCapturesGo none rest
        | none => parseCapturesGo current rest

/-- `parse_captures`. -/
def parse_captures (text : String) : List Capture :=
  parseCapturesGo none (pySplitlines text.data)

/-- Insertion into the model of a Python `dict` kept as an association list
in insertion order: assigning to an existing key replaces its value in
place, a new key is appended. -/
def dictInsert : List (String × String) → String → String → List (String × String)
  | [], k, v => [(k, v)]
  | (k', v') :: rest, k, v =>
    if k' == k then (k, v) :: rest else (k', v') :: dictInsert rest k v

/-- Dict lookup (first — and with `dictInsert`, only — binding of the key). -/
def dictFind : List (String × String) → String → Option String
  | [], _ => none
  | (k', v') :: rest, k => if k' == k then some v' else dictFind rest k

/-- The `flush_current` helper of `parse_notes_markdown`: an open block's
lines are joined with newline, trimmed, and stored under its key. -/
def flushNote (notes : List (String × String)) :
    Option (String × List (List Char)) → List (String × String)
  | some (name, buf) => dictInsert notes name ⟨pyStrip (List.intercalate ['\n'] buf)⟩
  | none => notes

/-- One line of the `parse_notes_markdown` loop: a start marker flushes any
open block then opens a new one keyed by the stripped group; an end marker
flushes; any other raw line accumulates verbatim while a block is open and
is dropped otherwise. -/
def parseNotesStep (notes : List (String × String))
    (current : Option (String × List (List Char))) (raw : List Char) :
    List (String × String) × Option (String × List (List Char)) :=
  match matchMarker "NOTE:".data (pyStrip raw) with
  | some name => (flushNote notes current, some (⟨pyStrip name⟩, []))
  | none =>
    if matchNoteEnd (pyStrip raw) then (flushNote notes current, none)
    else
      match current with
      | some (n, buf) => (notes, some (n, buf ++ [raw]))
      | none => (notes, none)

/-- The scan loop of `parse_notes_markdown`: `parseNotesStep` on each line,
end of input flushes. -/
def parseNotesGo (notes : List (String × String))
    (current : Option (String × List (List Char))) :
    List (List Char) → List (String × String)
  | [] => flushNote notes current
  | raw :: rest =>
    let st := parseNotesStep notes current raw
    parseNotesGo st.1 st.2 rest

/-- `parse_notes_markdown`. -/
def parse_notes_markdown (text : String) : List (String × String) :=
  parseNotesGo [] none (pySplitlines text.data)

/-- The order-file reading loop inside `apply_order`: strip each line, skip
blank lines and `#` comments. -/
def parse_order (text : String) : List String :=
  (pySplitlines text.data).filterMap fun raw =>
    let line := pyStrip raw
    if line.isEmpty || leadsWith "#".data line then none else some ⟨line⟩

/-- `by_name[name]`: the dict comprehension
`{item.get("fichier"): item for item in captures if item.get("fichier")}`
keeps, for each truthy (non-`None`, non-empty) filename, the last record
carrying it; looking up `name` finds something exactly when some record has
that non-empty filename. -/
def byNameFind (captures : List Capture) (name : String) : Option Capture :=
  if name = "" then none
  else (captures.filter (fun c => c.fichier == some name)).getLast?

/-- The body of `apply_order` once the order list is read: records named (in
the truthy-filename lookup) by order entries first, in order-list order,
then the records whose `fichier` value (`None` for a missing field) is not
an order entry, in original parse order. -/
def applyOrderCore (captures : List Capture) (order : List String) : List Capture :=
  let ordered := order.filterMap (byNameFind captures)
  let remaining := captures.filter fun c =>
    match c.fichier with
    | none => true
    | some s => !(order.contains s)
  ordered ++ remaining

/-- `apply_order`: `none` models a missing order file (`order_path.exists()`
false), in which case the records are returned unchanged; otherwise the
file's text is parsed into the order list. -/
def apply_order (captures : List Capture) (orderFile : Option String) : List Capture :=
  match orderFile with
  | none => captures
  | some text => applyOrderCore captures (parse_order text)

/-- `DEFAULT_PROJECT`. -/
def DEFAULT_PROJECT : String := "default"

/-- `sanitize_project`: strip, lowercase, spaces to dashes, drop characters
outside `[a-z0-9._-]` (the `PROJECT_RE` substitution), defaulting to
`"default"` when nothing remains. -/
def sanitize_project (value : String) : String :=
  let name := ((pyStrip value.data).map Char.toLower).map fun c =>
    if c == ' ' then '-' else c
  let name := name.filter fun c =>
    c.isLower || c.isDigit || c == '.' || c == '_' || c == '-'
  if name.isEmpty then DEFAULT_PROJECT else ⟨name⟩

/-- `image_src`: flat path for the default project, namespaced otherwise. -/
def image_src (project filename : String) : String :=
  if project = DEFAULT_PROJECT then "/screenshots/" ++ filename
  else "/screenshots/" ++ project ++ "/" ++ filename

/-- Python `html.escape` on a `String`. -/
def htmlEscape (s : String) : String := ⟨pyEscape s.data⟩

/-- The note aside of one card: empty when the trimmed note text is empty,
otherwise the note markdown rendered inside an `<aside>`. -/
def noteBlockHtml (noteText : String) : String :=
  if noteText = "" then ""
  else "<aside class=\"note\">" ++ markdown_to_html noteText ++ "</aside>"

/-- The f-string of one capture card (the braces of the template filled with
the already-escaped field values). -/
def cardText (filename url date imgSrc noteBlock : String) : String :=
  "\n      <div class=\"capture-row\">\n        <article class=\"card\" data-capture=\"" ++
  filename ++ "\">\n          <div class=\"shot-block\">\n            <a class=\"shot-link\" href=\"" ++
  url ++ "\" target=\"_blank\" rel=\"noopener\">\n              <img class=\"shot\" src=\"" ++
  imgSrc ++ "\" alt=\"Capture de l" ++ String.mk [apos] ++
  "article\" loading=\"lazy\" />\n            </a>\n            <a class=\"link\" href=\"" ++
  url ++ "\" target=\"_blank\" rel=\"noopener\">" ++ url ++
  "</a>\n            <span class=\"date\">" ++ date ++
  "</span>\n          </div>\n        </article>\n        " ++ noteBlock ++
  "\n      </div>"

/-- The per-record body of the `render_html` loop: field reads with escaping,
the image path, the trimmed note text, and the card string. -/
def renderCard (project : String) (notes : List (String × String)) (item : Capture) :
    String × String :=
  let rawFilename := item.fichier.getD ""
  let filename := htmlEscape rawFilename
  let url := htmlEscape (item.url.getD "")
  let date := htmlEscape (item.date.getD "")
  let img := if rawFilename = "" then "" else image_src project rawFilename
  let imgSrc := htmlEscape img
  let noteText : String := ⟨pyStrip ((dictFind notes rawFilename).getD "").data⟩
  (cardText filename url date imgSrc (noteBlockHtml noteText), noteText)

/-- The `render_html` loop over the (already reordered) records, producing
the cards in record order and the `notes_for_js` dict: a record whose
trimmed note text is non-empty inserts `(raw_filename, note_text)`. -/
def renderLoop (project : String) (notes : List (String × String))
    (njs : List (String × String)) : List Capture → List String × List (String × String)
  | [] => ([], njs)
  | item :: rest =>
    let rawFilename := item.fichier.getD ""
    let (card, noteText) := renderCard project notes item
    let njs' := if noteText = "" then njs else dictInsert njs rawFilename noteText
    let (cards, njsFinal) := renderLoop project notes njs' rest
    (card :: cards, njsFinal)

/-- The structured content of the generated document (the constant HTML/CSS/
JavaScript template text around these fields carries no record data and is
omitted; the client-side `markdownToHtml` it embeds is modelled above as
`js_markdownToHtml`). -/
structure RenderOutput where
  cards : List String
  notesForJs : List (String × String)
  cardsHtml : String
  pageTitle : String
  orderDownloadName : String
  deriving DecidableEq, Repr

/-- `render_html`: cards joined by newline (with the "no captures" fallback),
the escaped `<h1>`/`<title>` text, the escaped download name, and the
`initialNotes` state (`notes_for_js`) embedded for the client. -/
def render_html (captures : List Capture) (project title : String)
    (notes : List (String × String)) : RenderOutput :=
  let (cards, njs) := renderLoop project notes [] captures
  { cards := cards
    notesForJs := njs
    cardsHtml :=
      if cards.isEmpty then "<p>Aucune capture trouvee.</p>"
      else String.intercalate "\n" cards
    pageTitle := htmlEscape title
    orderDownloadName := htmlEscape ("order_" ++ project ++ ".md") }

/-- The file-system facts `generate_project` consults, per project name:
`none` models a missing file. -/
structure FS where
  capturesText : String → Option String
  orderText : String → Option String
  notesText : String → Option String

/-- `load_notes`: empty mapping when the notes file is missing. -/
def load_notes (fs : FS) (project : String) : List (String × String) :=
  match fs.notesText project with
  | none => []
  | some t => parse_notes_markdown t

/-- `generate_project`: `none` (failure, nothing written) exactly when the
project's captures file is missing; otherwise the parsed, reordered and
rendered document content.  `title or f"Captures - {project}"` makes an
absent or empty title fall back to the default. -/
def generate_project (fs : FS) (project : String) (title : Option String) :
    Option RenderOutput :=
  let p := sanitize_project project
  match fs.capturesText p with
  | none => none
  | some text =>
    let captures := apply_order (parse_captures text) (fs.orderText p)
    let notesMap := load_notes fs p
    let pageTitle :=
      match title with
      | some t => if t = "" then "Captures - " ++ p else t
      | none => "Captures - " ++ p
    some (render_html captures p pageTitle notesMap)

/-- The `--all-projects` loop of `main`: each project is generated in turn,
counting the successes. -/
def runAll (fs : FS) : List String → List (Option RenderOutput) × Nat
  | [] => ([], 0)
  | p :: ps =>
    let r := generate_project fs p none
    let (rs, n) := runAll fs ps
    (r :: rs, (if r.isSome then 1 else 0) + n)

/-- Exit code of `main --all-projects`: 1 when no project generated. -/
def mainAll (fs : FS) (projects : List String) : Int :=
  if (runAll fs projects).2 = 0 then 1 else 0

/-- Exit code of single-project `main`: 0 on success, 1 (with the error
message on stderr) when the captures file is missing. -/
def mainSingle (fs : FS) (project : String) (title : Option String) : Int :=
  if (generate_project fs project title).isSome then 0 else 1

/-- The truthy filename of a record: the key it contributes to the `by_name`
dict comprehension (`None` and the empty string are falsy). -/
def keyOf (c : Capture) : Option String :=
  match c.fichier with
  | some s => if s = "" then none else some s
  | none => none

/-- One mapping assignment of the spec-side lookup construction: a record
with a truthy (non-empty) filename overwrites that filename's entry, other
records assign nothing. -/
def assignStep (m : String → Option Capture) (c : Capture) : String → Option Capture :=
  match c.fichier with
  | some s => if s = "" then m else fun n => if n = s then some c else m n
  | none => m

/-- Spec-side reconciliation, written from the words of §4.3 OrderReconciler
(the comparison definition for the refinement claim): an absent or empty
order list returns the records unchanged; otherwise build a filename-to-
record lookup by successive mapping assignment (last record wins), emit the
order list's hits in the order list's order, then append every record whose
filename — an empty or missing filename always counting as "not in the
order list" — is not an order entry, in original parse order. -/
def reconcile_spec (records : List Capture) (orderList : List String) : List Capture :=
  if orderList.isEmpty then records
  else
    let lookup : String → Option Capture :=
      records.foldl assignStep fun _ => none
    orderList.filterMap lookup ++
      records.filter fun c =>
        match c.fichier with
        | some s => if s == "" then true else !(orderList.contains s)
        | none => true

/-- The Python `inline` helper lifted to `String`. -/
def inlineStr (s : String) : String := ⟨inline s.data⟩

/-- Head-of-tag test: does the list start with `s` or `e` (the only letters
that may follow `</` in inline output)? -/
def headSE : List Char → Bool
  | [] => false
  | c :: _ => c == 's' || c == 'e'

/-- What may follow a `<` in inline output: `s`, `e`, or `/` and then `s` or
`e`. -/
def ltHead : List Char → Bool
  | [] => false
  | c :: rest => c == 's' || c == 'e' || (c == '/' && headSE rest)

/-- Inline-output discipline for `<`: every `<` is immediately followed by
`s`, `e`, or by `/` and then `s` or `e`; in particular a dangling final `<`
is rejected.  This is what escaped content plus the four emphasis tags
guarantee, and it excludes any occurrence of `<ul>`, `</ul>` or `<li>`
inside escaped-and-emphasised text. -/
def ltOk : List Char → Bool
  | [] => true
  | c :: rest => if c == '<' then ltHead rest && ltOk rest else ltOk rest

/-- Characters that can occur inside the five HTML entities emitted by the
escaping step (`&amp;`, `&lt;`, `&gt;`, `&quot;`, `&#x27;`, `&#39;`). -/
def entityChar (c : Char) : Bool :=
  c == '&' || c == 'a' || c == 'm' || c == 'p' || c == ';' || c == 'l' ||
  c == 't' || c == 'g' || c == 'q' || c == 'u' || c == 'o' || c == '#' ||
  c == 'x' || c == '2' || c == '7' || c == '3' || c == '9'

/-- Checker for the list-tag discipline of rendered HTML: scanning left to
right with a list-nesting depth, `<ul>` may open only at depth 0, `</ul>`
may close only at depth 1, `<li>` may occur only at depth 1, and the scan
must end at depth 0.  In particular the number of `<ul>` and `</ul>`
occurrences must be equal (they strictly alternate) and a final open list is
rejected. -/
def ulScan : List Char → Nat → Bool
  | [], d => d == 0
  | c :: rest, d =>
    if c == '<' && leadsWith "ul>".data rest then (d == 0) && ulScan rest 1
    else if c == '<' && leadsWith "/ul>".data rest then (d == 1) && ulScan rest 0
    else if c == '<' && leadsWith "li>".data rest then (d == 1) && ulScan rest d
    else ulScan rest d

/-!  Theorems. -/

/-- Claim C1: the batch-side renderer and the client-side renderer are
claimed to return byte-identical HTML for every markdown input.  They do
not: on an input containing an apostrophe the Python side emits the
hexadecimal entity `&#x27;` (from `html.escape`) while the JavaScript side
emits the decimal entity `&#39;` (from its hand-written `escapeHtml`), so
the two outputs differ byte-wise on the single-apostrophe input. -/
theorem c1_renderer_divergence :
    markdown_to_html (String.mk [apos]) = "<p>&#x27;</p>" ∧
    js_markdownToHtml (String.mk [apos]) = "<p>&#39;</p>" ∧
    markdown_to_html (String.mk [apos]) ≠ js_markdownToHtml (String.mk [apos]) :=
  ⟨by decide, by decide, by decide⟩

theorem mem_applyOrderCore {captures : List Capture} {order : List String}
    {c : Capture} (hc : c ∈ applyOrderCore captures order) : c ∈ captures := by
  unfold applyOrderCore at hc
  rcases List.mem_append.1 hc with h | h
  · rcases List.mem_filterMap.1 h with ⟨name, _, hfind⟩
    unfold byNameFind at hfind
    split at hfind
    · exact absurd hfind (by simp)
    · exact List.mem_of_mem_filter (List.mem_of_mem_getLast? hfind)
  · exact List.mem_of_mem_filter h

theorem renderLoop_cards (project : String) (notes : List (String × String)) :
    ∀ (items : List Capture) (njs : List (String × String)),
      (renderLoop project notes njs items).1 =
        items.map fun item => (renderCard project notes item).1 := by
  intro items
  induction items with
  | nil => intro njs; rfl
  | cons item rest ih =>
    intro njs
    simp only [renderLoop, renderCard, List.map_cons, ih]

/-- Claim C7: ordering and rendering do not mutate records.  Every record in
`apply_order`'s output is — as a value, with all four fields unchanged — an
element of the input, and the cards `render_html` produces are a pure map of
the untouched record sequence (the embedding of both functions only reads
record fields; the source performs no assignment to a record). -/
theorem c7_records_not_mutated :
    (∀ (captures : List Capture) (orderFile : Option String) (c : Capture),
      c ∈ apply_order captures orderFile → c ∈ captures) ∧
    (∀ (captures : List Capture) (project title : String)
        (notes : List (String × String)),
      (render_html captures project title notes).cards =
        captures.map fun item => (renderCard project notes item).1) := by
  constructor
  · intro captures orderFile c hc
    cases orderFile with
    | none => exact hc
    | some text => exact mem_applyOrderCore hc
  · intro captures project title notes
    show (renderLoop project notes [] captures).1 = _
    exact renderLoop_cards project notes captures []

/-- Witness for C7 at a concrete record, order file and membership fact. -/
theorem c7_records_not_mutated_witness :
    (⟨"cap-1", some "a.png", none, none⟩ : Capture) ∈
      [(⟨"cap-1", some "a.png", none, none⟩ : Capture)] :=
  c7_records_not_mutated.1 [⟨"cap-1", some "a.png", none, none⟩] (some "b.png\n")
    ⟨"cap-1", some "a.png", none, none⟩ (by decide)

theorem runAll_fst (fs : FS) :
    ∀ ps : List String, (runAll fs ps).1 = ps.map fun p => generate_project fs p none := by
  intro ps
  induction ps with
  | nil => rfl
  | cons p rest ih => simp only [runAll, List.map_cons, ih]

theorem runAll_snd (fs : FS) :
    ∀ ps : List String,
      (runAll fs ps).2 = ps.countP fun p => (generate_project fs p none).isSome := by
  intro ps
  induction ps with
  | nil => rfl
  | cons p rest ih =>
    simp only [runAll, List.countP_cons, ih]
    cases h : (generate_project fs p none).isSome <;> simp [h, Nat.add_comm]

/-- Claim C8: the only hard failure is a missing captures file —
`generate_project` fails (producing nothing) exactly when the project's
captures file is absent; the single-project driver exits 1 exactly then; the
all-projects driver generates every project independently (each outcome a
function of that project's own files alone) and exits 1 only when no
project generated. -/
theorem c8_missing_captures_only_failure :
    (∀ (fs : FS) (proj : String) (title : Option String),
      generate_project fs proj title = none ↔
        fs.capturesText (sanitize_project proj) = none) ∧
    (∀ (fs : FS) (ps : List String),
      (runAll fs ps).1 = ps.map fun p => generate_project fs p none) ∧
    (∀ (fs : FS) (ps : List String),
      mainAll fs ps = 1 ↔ ∀ p ∈ ps, generate_project fs p none = none) ∧
    (∀ (fs : FS) (proj : String) (title : Option String),
      mainSingle fs proj title = 1 ↔ fs.capturesText (sanitize_project proj) = none) ∧
    (∀ (fs₁ fs₂ : FS) (proj : String) (title : Option String),
      fs₁.capturesText (sanitize_project proj) = fs₂.capturesText (sanitize_project proj) →
      fs₁.orderText (sanitize_project proj) = fs₂.orderText (sanitize_project proj) →
      fs₁.notesText (sanitize_project proj) = fs₂.notesText (sanitize_project proj) →
      generate_project fs₁ proj title = generate_project fs₂ proj title) := by
  have hfail : ∀ (fs : FS) (proj : String) (title : Option String),
      generate_project fs proj title = none ↔
        fs.capturesText (sanitize_project proj) = none := by
    intro fs proj title
    unfold generate_project
    cases h : fs.capturesText (sanitize_project proj) <;> simp [h]
  refine ⟨hfail, fun fs => runAll_fst fs, ?_, ?_, ?_⟩
  · intro fs ps
    unfold mainAll
    rw [runAll_snd]
    constructor
    · intro h
      by_cases hz : (ps.countP fun p => (generate_project fs p none).isSome) = 0
      · intro p hp
        have := List.countP_eq_zero.1 hz p hp
        simpa [Option.not_isSome_iff_eq_none] using this
      · simp [hz] at h
    · intro h
      have hz : (ps.countP fun p => (generate_project fs p none).isSome) = 0 :=
        List.countP_eq_zero.2 fun p hp => by simp [h p hp]
      simp [hz]
  · intro fs proj title
    unfold mainSingle
    rw [← hfail fs proj title]
    cases h : generate_project fs proj title <;> simp [h]
  · intro fs₁ fs₂ proj title h1 h2 h3
    unfold generate_project load_notes
    simp only [h1, h2, h3]

theorem matchMarker_isEmpty_false {kw l g : List Char}
    (h : matchMarker kw l = some g) : l.isEmpty = false := by
  cases l with
  | nil =>
    rw [show matchMarker kw [] = none from rfl] at h
    exact absurd h (by simp)
  | cons c cs => rfl

theorem matchField_isEmpty_false {l : List Char} {r : FieldKey × List Char}
    (h : matchField l = some r) : l.isEmpty = false := by
  cases l with
  | nil =>
    rw [show matchField [] = none from rfl] at h
    exact absurd h (by simp)
  | cons c cs => rfl

/-- Claim C5: the `parse_captures` scan.  A CAPTURE marker line pushes the
in-progress record and opens a new one; a recognised field line sets the
lowercase-keyed field only when a record is open (and is dropped otherwise);
blank and unrecognised lines are dropped; end of input flushes the open
record; the `Fichier` value is stripped of surrounding backticks; and, on a
representative log, records come out in source order with these fields. -/
theorem c5_parse_captures_scan :
    (∀ text : String, parse_captures text = parseCapturesGo none (pySplitlines text.data)) ∧
    (∀ (cur : Option Capture) (raw : List Char) (rest : List (List Char)) (cid : List Char),
      matchMarker "CAPTURE:".data (pyStrip raw) = some cid →
      parseCapturesGo cur (raw :: rest) =
        match cur with
        | some c => c :: parseCapturesGo (some { id := ⟨cid⟩ }) rest
        | none => parseCapturesGo (some { id := ⟨cid⟩ }) rest) ∧
    (∀ (c : Capture) (raw : List Char) (rest : List (List Char)) (k : FieldKey) (v : List Char),
      matchMarker "CAPTURE:".data (pyStrip raw) = none →
      matchField (pyStrip raw) = some (k, v) →
      parseCapturesGo (some c) (raw :: rest) = parseCapturesGo (some (setField c k v)) rest) ∧
    (∀ (raw : List Char) (rest : List (List Char)) (k : FieldKey) (v : List Char),
      matchMarker "CAPTURE:".data (pyStrip raw) = none →
      matchField (pyStrip raw) = some (k, v) →
      parseCapturesGo none (raw :: rest) = parseCapturesGo none rest) ∧
    (∀ (cur : Option Capture) (raw : List Char) (rest : List (List Char)),
      matchMarker "CAPTURE:".data (pyStrip raw) = none →
      matchField (pyStrip raw) = none →
      parseCapturesGo cur (raw :: rest) = parseCapturesGo cur rest) ∧
    (∀ c : Capture, parseCapturesGo (some c) [] = [c]) ∧
    parseCapturesGo none [] = [] ∧
    (∀ (c : Capture) (v : List Char),
      (setField c FieldKey.fichier v).fichier = some ⟨stripBackticks (pyStrip v)⟩) ∧
    parse_captures
        "<!-- CAPTURE: cap-1 -->\n- Fichier: `shot1.png`\n- URL: https://example.org/a\n- Date: 2024-01-02\n\nstray line\n<!-- CAPTURE: cap-2 -->\n- Fichier: shot2.png\n- Unknown: zzz\n<!-- CAPTURE: cap-3 -->\n- Date: 2024-03-04\n" =
      [⟨"cap-1", some "shot1.png", some "https://example.org/a", some "2024-01-02"⟩,
       ⟨"cap-2", some "shot2.png", none, none⟩,
       ⟨"cap-3", none, none, some "2024-03-04"⟩] := by
  refine ⟨fun _ => rfl, ?_, ?_, ?_, ?_, fun _ => rfl, rfl, fun _ _ => rfl, by decide⟩
  · intro cur raw rest cid hm
    have hne := matchMarker_isEmpty_false hm
    cases cur <;> simp [parseCapturesGo, hne, hm]
  · intro c raw rest k v hm hf
    have hne := matchField_isEmpty_false hf
    simp [parseCapturesGo, hne, hm, hf]
  · intro raw rest k v hm hf
    have hne := matchField_isEmpty_false hf
    simp [parseCapturesGo, hne, hm, hf]
  · intro cur raw rest hm hf
    by_cases hne : (pyStrip raw).isEmpty
    · cases cur <;> simp [parseCapturesGo, hne]
    · simp only [Bool.not_eq_true] at hne
      cases cur <;> simp [parseCapturesGo, hne, hm, hf]

/-- Witness for C5 at a concrete marker line: the in-progress record is
pushed and a fresh record with the captured id is opened. -/
theorem c5_parse_captures_scan_witness :
    parseCapturesGo (some ⟨"a", none, none, none⟩) ["<!-- CAPTURE: x -->".data] =
      (⟨"a", none, none, none⟩ : Capture) ::
        parseCapturesGo (some ⟨"x", none, none, none⟩) [] :=
  c5_parse_captures_scan.2.1 (some ⟨"a", none, none, none⟩)
    "<!-- CAPTURE: x -->".data [] "x".data (by decide)

theorem dictFind_dictInsert_self (m : List (String × String)) (k v : String) :
    dictFind (dictInsert m k v) k = some v := by
  induction m with
  | nil => simp [dictInsert, dictFind]
  | cons hd tl ih =>
    obtain ⟨k', v'⟩ := hd
    by_cases h : k' = k
    · simp [dictInsert, dictFind, h]
    · simp [dictInsert, dictFind, h, ih]

theorem dictInsert_keys_mem {m : List (String × String)} {k v : String} {x : String} :
    x ∈ (dictInsert m k v).map Prod.fst ↔ x ∈ m.map Prod.fst ∨ x = k := by
  induction m with
  | nil => simp [dictInsert]
  | cons hd tl ih =>
    obtain ⟨k', v'⟩ := hd
    by_cases h : k' = k
    · subst h
      simp [dictInsert]
      tauto
    · simp [dictInsert, h, ih]
      tauto

theorem dictInsert_keys_nodup {m : List (String × String)} {k v : String}
    (h : (m.map Prod.fst).Nodup) : ((dictInsert m k v).map Prod.fst).Nodup := by
  induction m with
  | nil => simp [dictInsert]
  | cons hd tl ih =>
    obtain ⟨k', v'⟩ := hd
    simp only [List.map_cons, List.nodup_cons] at h
    by_cases hk : k' = k
    · subst hk
      simpa [dictInsert, List.nodup_cons] using h
    · have hrw : dictInsert ((k', v') :: tl) k v = (k', v') :: dictInsert tl k v := by
        simp [dictInsert, hk]
      rw [hrw, List.map_cons]
      refine List.nodup_cons.2 ⟨?_, ih h.2⟩
      intro hmem
      rcases dictInsert_keys_mem.1 hmem with hx | hx
      · exact h.1 hx
      · exact hk hx

theorem flushNote_keys_nodup {notes : List (String × String)}
    {cur : Option (String × List (List Char))}
    (h : (notes.map Prod.fst).Nodup) : ((flushNote notes cur).map Prod.fst).Nodup := by
  cases cur with
  | none => exact h
  | some p => exact dictInsert_keys_nodup h

theorem parseNotesStep_keys_nodup {notes : List (String × String)}
    {cur : Option (String × List (List Char))} (raw : List Char)
    (h : (notes.map Prod.fst).Nodup) :
    (((parseNotesStep notes cur raw).1).map Prod.fst).Nodup := by
  unfold parseNotesStep
  cases hm : matchMarker "NOTE:".data (pyStrip raw) with
  | some name => exact flushNote_keys_nodup h
  | none =>
    cases he : matchNoteEnd (pyStrip raw) with
    | true => simp only [if_true]; exact flushNote_keys_nodup h
    | false =>
      simp only [Bool.false_eq_true, if_false]
      cases cur with
      | some p => exact h
      | none => exact h

theorem parseNotesGo_keys_nodup :
    ∀ (lines : List (List Char)) (notes : List (String × String))
      (cur : Option (String × List (List Char))),
      (notes.map Prod.fst).Nodup → ((parseNotesGo notes cur lines).map Prod.fst).Nodup := by
  intro lines
  induction lines with
  | nil => intro notes cur h; exact flushNote_keys_nodup h
  | cons raw rest ih =>
    intro notes cur h
    show ((parseNotesGo (parseNotesStep notes cur raw).1
      (parseNotesStep notes cur raw).2 rest).map Prod.fst).Nodup
    exact ih _ _ (parseNotesStep_keys_nodup raw h)

/-- Claim C6: the notes parser keeps at most one body per key (its key list
has no duplicates), a start marker flushes any open block before opening the
new one, an end marker flushes, end of input flushes, a flushed body is the
buffered verbatim lines joined with newline and trimmed, an insertion for an
existing key overwrites it (so the later block's body is the one retained,
as the concrete two-block log shows). -/
theorem c6_notes_last_wins :
    (∀ text : String, ((parse_notes_markdown text).map Prod.fst).Nodup) ∧
    (∀ (notes : List (String × String)) (cur : Option (String × List (List Char)))
        (raw : List Char) (rest : List (List Char)) (name : List Char),
      matchMarker "NOTE:".data (pyStrip raw) = some name →
      parseNotesGo notes cur (raw :: rest) =
        parseNotesGo (flushNote notes cur) (some (⟨pyStrip name⟩, [])) rest) ∧
    (∀ (notes : List (String × String)) (cur : Option (String × List (List Char)))
        (raw : List Char) (rest : List (List Char)),
      matchMarker "NOTE:".data (pyStrip raw) = none →
      matchNoteEnd (pyStrip raw) = true →
      parseNotesGo notes cur (raw :: rest) = parseNotesGo (flushNote notes cur) none rest) ∧
    (∀ (notes : List (String × String)) (cur : Option (String × List (List Char))),
      parseNotesGo notes cur [] = flushNote notes cur) ∧
    (∀ (notes : List (String × String)) (n : String) (buf : List (List Char)),
      flushNote notes (some (n, buf)) =
        dictInsert notes n ⟨pyStrip (List.intercalate ['\n'] buf)⟩) ∧
    (∀ (m : List (String × String)) (k v : String),
      dictFind (dictInsert m k v) k = some v) ∧
    dictFind (parse_notes_markdown
        "<!-- NOTE: a.png -->\nfirst\n<!-- END NOTE -->\n<!-- NOTE: a.png -->\nsecond\n<!-- END NOTE -->")
      "a.png" = some "second" := by
  refine ⟨?_, ?_, ?_, fun _ _ => rfl, fun _ _ _ => rfl, dictFind_dictInsert_self, by decide⟩
  · intro text
    exact parseNotesGo_keys_nodup _ [] none (by simp)
  · intro notes cur raw rest name hm
    simp [parseNotesGo, parseNotesStep, hm]
  · intro notes cur raw rest hm he
    simp [parseNotesGo, parseNotesStep, hm, he]

/-- Witness for C6 at a concrete start marker seen while a block is open:
the open block is flushed first, then the new block opens. -/
theorem c6_notes_last_wins_witness :
    parseNotesGo [] (some ("k", ["a".data])) ["<!-- NOTE: b -->".data] =
      parseNotesGo (flushNote [] (some ("k", ["a".data]))) (some ("b", [])) [] :=
  c6_notes_last_wins.2.1 [] (some ("k", ["a".data])) "<!-- NOTE: b -->".data [] "b".data
    (by decide)

theorem dictFind_dictInsert_ne {m : List (String × String)} {k v k' : String}
    (h : k' ≠ k) : dictFind (dictInsert m k v) k' = dictFind m k' := by
  induction m with
  | nil => simp [dictInsert, dictFind, Ne.symm h]
  | cons hd tl ih =>
    obtain ⟨k'', v''⟩ := hd
    by_cases hk : k'' = k
    · subst hk
      simp [dictInsert, dictFind, Ne.symm h]
    · by_cases hk' : k'' = k'
      · subst hk'
        simp [dictInsert, dictFind, hk]
      · simp [dictInsert, dictFind, hk, hk', ih]

theorem renderCard_snd (project : String) (notes : List (String × String))
    (item : Capture) :
    (renderCard project notes item).2 =
      ⟨pyStrip ((dictFind notes (item.fichier.getD "")).getD "").data⟩ := rfl

theorem renderLoop_njs_find (project : String) (notes : List (String × String)) :
    ∀ (items : List Capture) (njs : List (String × String)) (f : String),
      dictFind (renderLoop project notes njs items).2 f =
        if (items.any fun c => c.fichier.getD "" == f) &&
            !(pyStrip ((dictFind notes f).getD "").data).isEmpty then
          some ⟨pyStrip ((dictFind notes f).getD "").data⟩
        else dictFind njs f := by
  intro items
  induction items with
  | nil => intro njs f; simp [renderLoop]
  | cons item rest ih =>
    intro njs f
    have hstep : dictFind (renderLoop project notes njs (item :: rest)).2 f =
        dictFind (renderLoop project notes
          (if (renderCard project notes item).2 = "" then njs
           else dictInsert njs (item.fichier.getD "") (renderCard project notes item).2)
          rest).2 f := rfl
    rw [hstep, ih]
    rw [renderCard_snd]
    by_cases hm : item.fichier.getD "" = f
    · rw [hm]
      by_cases hempty : (pyStrip ((dictFind notes f).getD "").data).isEmpty = true
      · have h0 : pyStrip ((dictFind notes f).getD "").data = [] :=
          List.isEmpty_iff.1 hempty
        simp [h0, List.any_cons, hm]
      · have hne : (⟨pyStrip ((dictFind notes f).getD "").data⟩ : String) ≠ "" := by
          intro hcontra
          apply hempty
          have : pyStrip ((dictFind notes f).getD "").data = [] := by
            simpa [String.ext_iff] using hcontra
          simp [this]
        simp only [hne, if_false, List.any_cons, hm, beq_self_eq_true, Bool.true_or,
          Bool.not_eq_true]
        by_cases hrest : (rest.any fun c => c.fichier.getD "" == f) = true
        · simp [hrest, hempty]
        · simp only [Bool.not_eq_true] at hrest
          simp [hrest, hempty, dictFind_dictInsert_self]
    · have hbeq : (item.fichier.getD "" == f) = false := by
        simp [hm]
      simp only [List.any_cons, hbeq, Bool.false_or]
      by_cases hrest : ((rest.any fun c => c.fichier.getD "" == f) &&
          !(pyStrip ((dictFind notes f).getD "").data).isEmpty) = true
      · simp [hrest]
      · simp only [hrest, if_false]
        simp only [Bool.not_eq_true] at hrest
        rw [if_neg (by simp [hrest])]
        by_cases hnt : (⟨pyStrip ((dictFind notes (item.fichier.getD "")).getD "").data⟩ : String) = ""
        · simp [hnt]
        · simp only [hnt, if_false]
          exact dictFind_dictInsert_ne fun hcontra => hm hcontra.symm

/-- Claim C10: the `initialNotes` mapping embedded for the client contains
exactly the pairs (filename, trimmed note body) of rendered records whose
trimmed body is non-empty: looking up any filename in `notes_for_js` yields
the trimmed note body exactly when some rendered record carries that
filename and the body does not trim to empty, and yields nothing otherwise;
moreover a record whose note trims to empty gets a card with an empty note
block (no aside). -/
theorem c10_initial_notes_exact :
    (∀ (captures : List Capture) (project title : String)
        (notes : List (String × String)) (f : String),
      dictFind (render_html captures project title notes).notesForJs f =
        if (captures.any fun c => c.fichier.getD "" == f) &&
            !(pyStrip ((dictFind notes f).getD "").data).isEmpty then
          some ⟨pyStrip ((dictFind notes f).getD "").data⟩
        else none) ∧
    noteBlockHtml "" = "" ∧
    (∀ (project : String) (notes : List (String × String)) (item : Capture),
      pyStrip ((dictFind notes (item.fichier.getD "")).getD "").data = [] →
      (renderCard project notes item).1 =
        cardText (htmlEscape (item.fichier.getD "")) (htmlEscape (item.url.getD ""))
          (htmlEscape (item.date.getD ""))
          (htmlEscape (if item.fichier.getD "" = "" then ""
            else image_src project (item.fichier.getD ""))) "") := by
  refine ⟨?_, rfl, ?_⟩
  · intro captures project title notes f
    have h : (render_html captures project title notes).notesForJs =
        (renderLoop project notes [] captures).2 := rfl
    rw [h, renderLoop_njs_find]
    rfl
  · intro project notes item h
    show (cardText _ _ _ _
      (noteBlockHtml ⟨pyStrip ((dictFind notes (item.fichier.getD "")).getD "").data⟩), _).1 = _
    rw [h]
    rfl

theorem parse_order_not_mem_empty (text : String) : "" ∉ parse_order text := by
  intro h
  rcases List.mem_filterMap.1 h with ⟨raw, _, hf⟩
  dsimp only at hf
  by_cases hcond : ((pyStrip raw).isEmpty || leadsWith "#".data (pyStrip raw)) = true
  · rw [if_pos hcond] at hf
    exact absurd hf (by simp)
  · rw [if_neg hcond] at hf
    have h2 := Option.some.inj hf
    have h3 : pyStrip raw = [] := by
      have := congrArg String.data h2
      simpa using this
    apply hcond
    simp [h3]

theorem assignStep_self {c : Capture} {n : String} (m : String → Option Capture)
    (pc : (keyOf c == some n) = true) : assignStep m c n = some c := by
  rcases hcf : c.fichier with _ | s
  · simp [keyOf, hcf] at pc
  · by_cases hs : s = ""
    · simp [keyOf, hcf, hs] at pc
    · have hsn : s = n := by simpa [keyOf, hcf, hs] using pc
      subst hsn
      simp [assignStep, hcf, hs]

theorem assignStep_other {c : Capture} {n : String} (m : String → Option Capture)
    (pc : (keyOf c == some n) = false) : assignStep m c n = m n := by
  rcases hcf : c.fichier with _ | s
  · simp [assignStep, hcf]
  · by_cases hs : s = ""
    · simp [assignStep, hcf, hs]
    · have hsn : ¬n = s := by
        intro hcontra
        rw [hcontra] at pc
        simp [keyOf, hcf, hs] at pc
      simp [assignStep, hcf, hs, hsn]

theorem foldl_assignStep (n : String) :
    ∀ (records : List Capture) (m : String → Option Capture),
      (records.foldl assignStep m) n =
        match (records.filter fun c => keyOf c == some n).getLast? with
        | some c => some c
        | none => m n := by
  intro records
  induction records with
  | nil => intro m; rfl
  | cons c cs ih =>
    intro m
    rw [List.foldl_cons, ih]
    cases pc : (keyOf c == some n) with
    | true =>
      simp only [List.filter_cons, pc, if_true]
      cases hf : cs.filter (fun c => keyOf c == some n) with
      | nil => simpa using assignStep_self m pc
      | cons d ds =>
        rw [List.getLast?_cons_cons]
        obtain ⟨e, he⟩ :=
          Option.isSome_iff_exists.1 (List.getLast?_isSome.2 (List.cons_ne_nil d ds))
        rw [he]
    | false =>
      simp only [List.filter_cons, pc, Bool.false_eq_true, if_false]
      cases hf : cs.filter (fun c => keyOf c == some n) with
      | nil => simpa using assignStep_other m pc
      | cons d ds => rfl

theorem assign_lookup_eq_byNameFind (records : List Capture) (n : String) :
    (records.foldl assignStep fun _ => none) n = byNameFind records n := by
  rw [foldl_assignStep]
  by_cases hn : n = ""
  · subst hn
    have hnil : (records.filter fun c => keyOf c == some "") = [] := by
      rw [List.filter_eq_nil_iff]
      intro c _
      rcases hcf : c.fichier with _ | s
      · simp [keyOf, hcf]
      · by_cases hs : s = "" <;> simp [keyOf, hcf, hs]
    rw [hnil]
    simp [byNameFind]
  · have hfe : (records.filter fun c => keyOf c == some n) =
        records.filter fun c => c.fichier == some n := by
      apply List.filter_congr
      intro c _
      rcases hcf : c.fichier with _ | s
      · simp [keyOf, hcf]
      · by_cases hs : s = ""
        · subst hs
          simp [keyOf, hcf, Ne.symm hn]
        · simp [keyOf, hcf, hs]
    rw [hfe]
    unfold byNameFind
    rw [if_neg hn]
    cases (records.filter fun c => c.fichier == some n).getLast? <;> rfl

theorem applyOrderCore_nil (captures : List Capture) :
    applyOrderCore captures [] = captures := by
  unfold applyOrderCore
  simp only [List.filterMap_nil, List.nil_append]
  rw [List.filter_eq_self]
  intro c _
  rcases c.fichier with _ | s <;> simp

theorem applyOrderCore_eq_reconcile_spec (captures : List Capture)
    (orderList : List String) (h : "" ∉ orderList) :
    applyOrderCore captures orderList = reconcile_spec captures orderList := by
  by_cases he : orderList.isEmpty
  · rw [List.isEmpty_iff.1 he, applyOrderCore_nil]
    rfl
  · unfold applyOrderCore reconcile_spec
    rw [if_neg (by simpa using he)]
    have h1 : orderList.filterMap (byNameFind captures) =
        orderList.filterMap (captures.foldl assignStep fun _ => none) :=
      List.filterMap_congr fun n _ => (assign_lookup_eq_byNameFind captures n).symm
    rw [h1]
    have h2 : (captures.filter fun c =>
        match c.fichier with
        | none => true
        | some s => !(orderList.contains s)) =
        captures.filter fun c =>
          match c.fichier with
          | some s => if s == "" then true else !(orderList.contains s)
          | none => true := by
      apply List.filter_congr
      intro c _
      rcases hcf : c.fichier with _ | s
      · simp
      · by_cases hs : s = ""
        · subst hs
          simp [h]
        · simp [hs]
    rw [h2]

theorem byNameFind_some {captures : List Capture} {n : String} {c : Capture}
    (h : byNameFind captures n = some c) :
    c ∈ captures ∧ c.fichier = some n ∧ n ≠ "" := by
  unfold byNameFind at h
  by_cases hn : n = ""
  · rw [if_pos hn] at h
    exact absurd h (by simp)
  · rw [if_neg hn] at h
    have hmem := List.mem_of_mem_getLast? h
    have hflt := List.mem_filter.1 hmem
    exact ⟨hflt.1, by simpa using hflt.2, hn⟩

/-- The membership test the reordering splits records on: does the record's
filename (if any) occur in the order list? -/
def inOrderB (order : List String) (c : Capture) : Bool :=
  match c.fichier with
  | some s => order.contains s
  | none => false

theorem filter_append_not_perm {α : Type} (q : α → Bool) :
    ∀ l : List α, (l.filter q ++ l.filter fun c => !q c).Perm l := by
  intro l
  induction l with
  | nil => simp
  | cons a as ih =>
    cases hq : q a with
    | true =>
      simp only [List.filter_cons, hq, Bool.not_true, Bool.false_eq_true, if_false, if_true,
        List.cons_append]
      exact ih.cons a
    | false =>
      simp only [List.filter_cons, hq, Bool.not_false, Bool.false_eq_true, if_false, if_true]
      exact List.perm_middle.trans (ih.cons a)

theorem filter_nodup_of_keys_nodup :
    ∀ (captures : List Capture), (captures.filterMap keyOf).Nodup →
      ∀ q : Capture → Bool, (∀ c, q c = true → (keyOf c).isSome) →
        (captures.filter q).Nodup := by
  intro captures
  induction captures with
  | nil => intro _ q _; simp
  | cons c cs ih =>
    intro hkeys q hq
    have htail : (cs.filterMap keyOf).Nodup := by
      rcases hk : keyOf c with _ | s
      · simpa [List.filterMap_cons, hk] using hkeys
      · simp only [List.filterMap_cons, hk, List.nodup_cons] at hkeys
        exact hkeys.2
    cases hqc : q c with
    | false => simpa [List.filter_cons, hqc] using ih htail q hq
    | true =>
      simp only [List.filter_cons, hqc, if_true]
      refine List.nodup_cons.2 ⟨?_, ih htail q hq⟩
      intro hmem
      have hcs : c ∈ cs := List.mem_of_mem_filter hmem
      rcases Option.isSome_iff_exists.1 (hq c hqc) with ⟨s, hs⟩
      simp only [List.filterMap_cons, hs, List.nodup_cons] at hkeys
      exact hkeys.1 (List.mem_filterMap.2 ⟨c, hcs, hs⟩)

theorem filter_fichier_eq_singleton :
    ∀ (captures : List Capture), (captures.filterMap keyOf).Nodup →
      ∀ (s : String), s ≠ "" → ∀ c ∈ captures, c.fichier = some s →
        captures.filter (fun d => d.fichier == some s) = [c] := by
  intro captures
  induction captures with
  | nil => intro _ s _ c hc; simp at hc
  | cons a as ih =>
    intro hkeys s hs c hc hcf
    have htail : (as.filterMap keyOf).Nodup := by
      rcases hk : keyOf a with _ | t
      · simpa [List.filterMap_cons, hk] using hkeys
      · simp only [List.filterMap_cons, hk, List.nodup_cons] at hkeys
        exact hkeys.2
    by_cases haf : a.fichier = some s
    · have hka : keyOf a = some s := by simp [keyOf, haf, hs]
      simp only [List.filterMap_cons, hka, List.nodup_cons] at hkeys
      have hpa : (a.fichier == some s) = true := by simpa using haf
      have hnone : as.filter (fun d => d.fichier == some s) = [] := by
        rw [List.filter_eq_nil_iff]
        intro d hd hdp
        have hdf : d.fichier = some s := by simpa using hdp
        exact hkeys.1 (List.mem_filterMap.2 ⟨d, hd, by simp [keyOf, hdf, hs]⟩)
      have hceq : c = a := by
        rcases List.mem_cons.1 hc with rfl | hcs
        · rfl
        · exact absurd (List.mem_filterMap.2 ⟨c, hcs, by simp [keyOf, hcf, hs]⟩) hkeys.1
      simp [List.filter_cons, hpa, hnone, hceq]
    · have hpa : (a.fichier == some s) = false := by simpa using haf
      have hcs : c ∈ as := by
        rcases List.mem_cons.1 hc with rfl | hcs
        · exact absurd hcf haf
        · exact hcs
      simp only [List.filter_cons, hpa, Bool.false_eq_true, if_false]
      exact ih htail s hs c hcs hcf

theorem byNameFind_eq_of_mem {captures : List Capture}
    (hkeys : (captures.filterMap keyOf).Nodup) {s : String} {c : Capture}
    (hs : s ≠ "") (hc : c ∈ captures) (hcf : c.fichier = some s) :
    byNameFind captures s = some c := by
  unfold byNameFind
  rw [if_neg hs, filter_fichier_eq_singleton captures hkeys s hs c hc hcf]
  rfl

theorem ordered_perm_filter {captures : List Capture} {order : List String}
    (hkeys : (captures.filterMap keyOf).Nodup) (hord : order.Nodup)
    (hord0 : "" ∉ order) :
    (order.filterMap (byNameFind captures)).Perm (captures.filter (inOrderB order)) := by
  have h1 : (order.filterMap (byNameFind captures)).Nodup := by
    refine List.Nodup.filterMap ?_ hord
    intro a a' b hb hb'
    have e1 := (byNameFind_some (Option.mem_def.1 hb)).2.1
    have e2 := (byNameFind_some (Option.mem_def.1 hb')).2.1
    exact Option.some.inj (e1.symm.trans e2)
  have h2 : (captures.filter (inOrderB order)).Nodup := by
    refine filter_nodup_of_keys_nodup captures hkeys _ ?_
    intro c hq
    unfold inOrderB at hq
    rcases hcf : c.fichier with _ | s
    · rw [hcf] at hq
      simp at hq
    · rw [hcf] at hq
      have hsmem : s ∈ order := by simpa using hq
      have hs : s ≠ "" := fun h => hord0 (h ▸ hsmem)
      simp [keyOf, hcf, hs]
  rw [List.perm_ext_iff_of_nodup h1 h2]
  intro c
  constructor
  · intro hmem
    rcases List.mem_filterMap.1 hmem with ⟨n, hn, hfind⟩
    obtain ⟨hmem2, hcf, _⟩ := byNameFind_some hfind
    refine List.mem_filter.2 ⟨hmem2, ?_⟩
    unfold inOrderB
    rw [hcf]
    simpa using hn
  · intro hmem
    obtain ⟨hmem2, hio⟩ := List.mem_filter.1 hmem
    unfold inOrderB at hio
    rcases hcf : c.fichier with _ | s
    · rw [hcf] at hio
      simp at hio
    · rw [hcf] at hio
      have hsmem : s ∈ order := by simpa using hio
      have hs : s ≠ "" := fun h => hord0 (h ▸ hsmem)
      exact List.mem_filterMap.2 ⟨s, hsmem, byNameFind_eq_of_mem hkeys hs hmem2 hcf⟩

/-- Claim C2, counterexample to the universally quantified statement: with
two records sharing the filename `a` and the order list `[a]`, the `by_name`
dict keeps only the later record, the order pass emits it once, and the
remaining pass drops both (their filename is in the order list), so a record
is lost — the output is not a multiset permutation of the input. -/
theorem c2_reconcile_not_permutation :
    ¬ (applyOrderCore
        [⟨"1", some "a", none, none⟩, ⟨"2", some "a", none, none⟩] ["a"]).Perm
      [⟨"1", some "a", none, none⟩, ⟨"2", some "a", none, none⟩] := by decide

/-- Claim C2 as amended: when the records' truthy (non-empty) filenames are
pairwise distinct and the order list has no duplicate and no empty entries
— the spec's own design note records that the code "silently tolerates
duplicates via mapping overwrite", which is exactly the failure mode of the
unrestricted claim — reconciliation is a multiset permutation: it only
moves records, never adds, duplicates or removes one. -/
theorem c2_reconcile_is_permutation (captures : List Capture) (order : List String)
    (hkeys : (captures.filterMap keyOf).Nodup) (hord : order.Nodup)
    (hord0 : "" ∉ order) :
    (applyOrderCore captures order).Perm captures := by
  unfold applyOrderCore
  have hrem : (captures.filter fun c =>
      match c.fichier with
      | none => true
      | some s => !(order.contains s)) =
      captures.filter fun c => !(inOrderB order c) := by
    apply List.filter_congr
    intro c _
    rcases hcf : c.fichier with _ | s <;> simp [inOrderB, hcf]
  rw [hrem]
  exact ((ordered_perm_filter hkeys hord hord0).append (List.Perm.refl _)).trans
    (filter_append_not_perm (inOrderB order) captures)

/-- Witness for the amended C2 at concrete distinct-filename records and a
duplicate-free order list. -/
theorem c2_reconcile_is_permutation_witness :
    (applyOrderCore
        [⟨"1", some "a", none, none⟩, ⟨"2", some "b", none, none⟩] ["b"]).Perm
      [⟨"1", some "a", none, none⟩, ⟨"2", some "b", none, none⟩] :=
  c2_reconcile_is_permutation
    [⟨"1", some "a", none, none⟩, ⟨"2", some "b", none, none⟩] ["b"]
    (by decide) (by decide) (by decide)

/-- Claim C3: the `apply_order` postcondition, as a refinement against the
spec-side `reconcile_spec` written from §4.3's words: a missing order file
returns the records unchanged, and otherwise the output is the order list's
lookup hits (last record wins, unknown names contribute nothing) followed by
the records not named, in parse order, records with an empty or missing
filename always being in the appended group.  `reconcile_spec` also returns
the records unchanged on an empty order list, so the empty case is covered
by the equation. -/
theorem c3_apply_order_postcondition :
    (∀ captures : List Capture, apply_order captures none = captures) ∧
    (∀ (captures : List Capture) (text : String),
      apply_order captures (some text) = reconcile_spec captures (parse_order text)) ∧
    (∀ captures : List Capture, applyOrderCore captures [] = captures) := by
  refine ⟨fun _ => rfl, ?_, applyOrderCore_nil⟩
  intro captures text
  show applyOrderCore captures (parse_order text) = _
  exact applyOrderCore_eq_reconcile_spec captures (parse_order text)
    (parse_order_not_mem_empty text)

/-- Witness for C10's empty-note part at a concrete record with no stored
note: the card is built with an empty note block. -/
theorem c10_initial_notes_exact_witness :
    (renderCard "p" [] ⟨"1", some "a.png", none, none⟩).1 =
      cardText (htmlEscape "a.png") (htmlEscape "") (htmlEscape "")
        (htmlEscape (if ("a.png" : String) = "" then "" else image_src "p" "a.png")) "" := by
  have h := c10_initial_notes_exact.2.2 "p" [] ⟨"1", some "a.png", none, none⟩ (by decide)
  exact h

/-- Witness for C8's locality part: two concrete file systems that agree on
the files of project `p` (the second holds data only for another project)
generate `p` identically. -/
theorem c8_missing_captures_only_failure_witness :
    generate_project ⟨fun _ => none, fun _ => none, fun _ => none⟩ "p" none =
      generate_project
        ⟨fun _ => none, fun s => if s = "other" then some "x.png" else none,
          fun _ => none⟩ "p" none :=
  c8_missing_captures_only_failure.2.2.2.2
    ⟨fun _ => none, fun _ => none, fun _ => none⟩
    ⟨fun _ => none, fun s => if s = "other" then some "x.png" else none, fun _ => none⟩
    "p" none rfl (by decide) rfl

theorem entityChar_facts {c : Char} (h : entityChar c = true) :
    c ≠ '*' ∧ c ≠ '_' ∧ c ≠ '\n' ∧ c ≠ '<' ∧ c ≠ '>' ∧ c ≠ '"' ∧ c ≠ apos := by
  simp only [entityChar, Bool.or_eq_true, beq_iff_eq, or_assoc] at h
  rcases h with rfl | rfl | rfl | rfl | rfl | rfl | rfl | rfl | rfl | rfl | rfl | rfl |
    rfl | rfl | rfl | rfl | rfl <;> decide

theorem mem_pyEscapeChar_cases {c c' : Char} (h : c' ∈ pyEscapeChar c) :
    (c' = c ∧ c ≠ '&' ∧ c ≠ '<' ∧ c ≠ '>' ∧ c ≠ '"' ∧ c ≠ apos) ∨
      entityChar c' = true := by
  unfold pyEscapeChar at h
  by_cases e1 : c == '&'
  · rw [if_pos e1] at h
    have h2 : c' ∈ ['&', 'a', 'm', 'p', ';'] := h
    right
    simp at h2
    rcases h2 with rfl | rfl | rfl | rfl | rfl <;> decide
  · rw [if_neg e1] at h
    by_cases e2 : c == '<'
    · rw [if_pos e2] at h
      have h2 : c' ∈ ['&', 'l', 't', ';'] := h
      right
      simp at h2
      rcases h2 with rfl | rfl | rfl | rfl <;> decide
    · rw [if_neg e2] at h
      by_cases e3 : c == '>'
      · rw [if_pos e3] at h
        have h2 : c' ∈ ['&', 'g', 't', ';'] := h
        right
        simp at h2
        rcases h2 with rfl | rfl | rfl | rfl <;> decide
      · rw [if_neg e3] at h
        by_cases e4 : c == '"'
        · rw [if_pos e4] at h
          have h2 : c' ∈ ['&', 'q', 'u', 'o', 't', ';'] := h
          right
          simp at h2
          rcases h2 with rfl | rfl | rfl | rfl | rfl | rfl <;> decide
        · rw [if_neg e4] at h
          by_cases e5 : c == apos
          · rw [if_pos e5] at h
            have h2 : c' ∈ ['&', '#', 'x', '2', '7', ';'] := h
            right
            simp at h2
            rcases h2 with rfl | rfl | rfl | rfl | rfl | rfl <;> decide
          · rw [if_neg e5] at h
            have h2 : c' ∈ [c] := h
            simp at h2
            subst h2
            exact Or.inl ⟨rfl, by simpa using e1, by simpa using e2, by simpa using e3,
              by simpa using e4, by simpa using e5⟩

theorem pyEscapeChar_ne_nil (c : Char) : pyEscapeChar c ≠ [] := by
  unfold pyEscapeChar
  split
  · simp
  · split
    · simp
    · split
      · simp
      · split
        · simp
        · split
          · simp
          · simp

theorem mem_pyEscape {v : List Char} {c' : Char} (h : c' ∈ pyEscape v) :
    ∃ c ∈ v, c' ∈ pyEscapeChar c := by
  unfold pyEscape at h
  rcases List.mem_flatten.1 h with ⟨piece, hpiece, hc'⟩
  rcases List.mem_map.1 hpiece with ⟨c, hc, rfl⟩
  exact ⟨c, hc, hc'⟩

theorem pyEscape_markerFree {v : List Char}
    (h : ∀ c ∈ v, c ≠ '*' ∧ c ≠ '_' ∧ c ≠ '\n') :
    ∀ c' ∈ pyEscape v, c' ≠ '*' ∧ c' ≠ '_' ∧ c' ≠ '\n' := by
  intro c' hc'
  rcases mem_pyEscape hc' with ⟨c, hc, hmem⟩
  rcases mem_pyEscapeChar_cases hmem with ⟨rfl, _⟩ | hent
  · exact h _ hc
  · obtain ⟨f1, f2, f3, _⟩ := entityChar_facts hent
    exact ⟨f1, f2, f3⟩

theorem pyEscape_ne_nil {v : List Char} (h : v ≠ []) : pyEscape v ≠ [] := by
  cases v with
  | nil => exact absurd rfl h
  | cons c rest =>
    unfold pyEscape
    simp only [List.map_cons, List.flatten_cons]
    intro hcontra
    exact pyEscapeChar_ne_nil c (List.append_eq_nil.1 hcontra).1

theorem subEmphF_markerFree (marker : Char) (ot ct : List Char) (dx : Char → Bool) :
    ∀ (fuel : Nat) (s : List Char), (∀ c ∈ s, (c == marker) = false) →
      subEmphF marker ot ct dx fuel s = s := by
  intro fuel
  induction fuel with
  | zero => intro s _; rfl
  | succ n ih =>
    intro s h
    cases s with
    | nil => rfl
    | cons c rest =>
      have hc := h c (List.mem_cons_self c rest)
      simp only [subEmphF, hc, Bool.false_eq_true, if_false]
      rw [ih rest fun d hd => h d (List.mem_cons_of_mem c hd)]

theorem subEmph_markerFree (marker : Char) (ot ct : List Char) (dx : Char → Bool)
    (s : List Char) (h : ∀ c ∈ s, (c == marker) = false) :
    subEmph marker ot ct dx s = s :=
  subEmphF_markerFree marker ot ct dx s.length s h

theorem findCloseGo_append (marker : Char) (dx : Char → Bool) (r : List Char) :
    ∀ (s : List Char) (acc : List Char),
      (∀ c ∈ s, (c == marker) = false ∧ dx c = false) →
      findCloseGo marker dx acc (s ++ marker :: r) = some (acc.reverse ++ s, r) := by
  intro s
  induction s with
  | nil =>
    intro acc _
    simp [findCloseGo]
  | cons d ds ih =>
    intro acc h
    have hd := h d (List.mem_cons_self d ds)
    show findCloseGo marker dx acc (d :: (ds ++ marker :: r)) = _
    simp only [findCloseGo, hd.1, hd.2, Bool.false_eq_true, if_false]
    rw [ih (d :: acc) fun c hc => h c (List.mem_cons_of_mem d hc)]
    simp

theorem findClose_append (marker : Char) (dx : Char → Bool) {s : List Char}
    (r : List Char) (hne : s ≠ [])
    (h : ∀ c ∈ s, (c == marker) = false ∧ dx c = false) :
    findClose marker dx (s ++ marker :: r) = some (s, r) := by
  cases s with
  | nil => exact absurd rfl hne
  | cons c0 s' =>
    have h0 := h c0 (List.mem_cons_self c0 s')
    show findClose marker dx (c0 :: (s' ++ marker :: r)) = _
    simp only [findClose, h0.2, Bool.false_eq_true, if_false]
    rw [findCloseGo_append marker dx r s' [c0] fun c hc => h c (List.mem_cons_of_mem c0 hc)]
    simp

theorem subEmph_wrap (marker : Char) (ot ct : List Char) (dx : Char → Bool)
    (s : List Char) (hne : s ≠ [])
    (h : ∀ c ∈ s, (c == marker) = false ∧ dx c = false) :
    subEmph marker ot ct dx (marker :: s ++ [marker]) = ot ++ s ++ ct := by
  unfold subEmph
  have hlen : (marker :: s ++ [marker]).length = s.length + 1 + 1 := by simp
  rw [hlen]
  show subEmphF marker ot ct dx (s.length + 1 + 1) (marker :: (s ++ [marker])) = _
  simp only [subEmphF, beq_self_eq_true, if_true]
  rw [findClose_append marker dx [] hne h]
  have hnil : subEmphF marker ot ct dx (s.length + 1) [] = [] := by
    simp [subEmphF]
  show ot ++ s ++ ct ++ subEmphF marker ot ct dx (s.length + 1) [] = ot ++ s ++ ct
  rw [hnil]
  simp [List.append_assoc]

theorem inline_wrap (v : List Char) (hne : v ≠ [])
    (h : ∀ c ∈ v, c ≠ '*' ∧ c ≠ '_' ∧ c ≠ '\n') :
    inline ('*' :: v ++ ['*']) = "<strong>".data ++ pyEscape v ++ "</strong>".data ∧
    inline ('_' :: v ++ ['_']) = "<em>".data ++ pyEscape v ++ "</em>".data := by
  have hesc : ∀ m : Char, (m == '&') = false → (m == '<') = false → (m == '>') = false →
      (m == '"') = false → (m == apos) = false →
      pyEscape (m :: v ++ [m]) = m :: pyEscape v ++ [m] := by
    intro m m1 m2 m3 m4 m5
    have hm : pyEscapeChar m = [m] := by
      unfold pyEscapeChar
      simp [m1, m2, m3, m4, m5]
    unfold pyEscape
    simp [List.map_append, hm, List.append_assoc]
  have hmf := pyEscape_markerFree h
  have hstarfree : ∀ c ∈ pyEscape v, (c == '*') = false := fun c hc => by
    simp [(hmf c hc).1]
  have hunderfree : ∀ c ∈ pyEscape v, (c == '_') = false := fun c hc => by
    simp [(hmf c hc).2.1]
  have hnlfree : ∀ c ∈ pyEscape v, pyDotExcl c = false := fun c hc => by
    simp [pyDotExcl, (hmf c hc).2.2]
  have hescne := pyEscape_ne_nil hne
  constructor
  · unfold inline
    rw [hesc '*' (by decide) (by decide) (by decide) (by decide) (by decide)]
    rw [subEmph_wrap '*' "<strong>".data "</strong>".data pyDotExcl (pyEscape v) hescne
      fun c hc => ⟨hstarfree c hc, hnlfree c hc⟩]
    apply subEmph_markerFree
    intro c hc
    rcases List.mem_append.1 hc with hc1 | hc2
    · rcases List.mem_append.1 hc1 with hct | hcv
      · have h2 : c ∈ ['<', 's', 't', 'r', 'o', 'n', 'g', '>'] := hct
        simp at h2
        rcases h2 with rfl | rfl | rfl | rfl | rfl | rfl | rfl | rfl <;> decide
      · exact hunderfree c hcv
    · have h2 : c ∈ ['<', '/', 's', 't', 'r', 'o', 'n', 'g', '>'] := hc2
      simp at h2
      rcases h2 with rfl | rfl | rfl | rfl | rfl | rfl | rfl | rfl | rfl <;> decide
  · unfold inline
    rw [hesc '_' (by decide) (by decide) (by decide) (by decide) (by decide)]
    rw [subEmph_markerFree '*' "<strong>".data "</strong>".data pyDotExcl _ ?_]
    · exact subEmph_wrap '_' "<em>".data "</em>".data pyDotExcl (pyEscape v) hescne
        fun c hc => ⟨hunderfree c hc, hnlfree c hc⟩
    · intro c hc
      rcases List.mem_cons.1 hc with rfl | hc'
      · decide
      · rcases List.mem_append.1 hc' with hcv | hcm
        · exact hstarfree c hcv
        · have h2 : c ∈ ['_'] := hcm
          simp at h2
          subst h2
          decide

/-- Claim C4: escaping happens strictly before the emphasis substitutions,
per text fragment.  For any fragment free of markers and newlines, wrapping
it in `*…*` (resp. `_…_`) yields the tag around the HTML-escaped fragment —
so `<`, `>`, `&`, quotes inside an emphasised span come out escaped while
the markers are still converted; the escaped text never contains a raw `<`,
`>`, `"` or `'`; and the transform is applied per paragraph, not globally:
markers split across two paragraphs do not pair up. -/
theorem c4_escape_before_emphasis :
    (∀ v : String, v ≠ "" → (∀ c ∈ v.data, c ≠ '*' ∧ c ≠ '_' ∧ c ≠ '\n') →
      inlineStr ("*" ++ v ++ "*") = "<strong>" ++ htmlEscape v ++ "</strong>" ∧
      inlineStr ("_" ++ v ++ "_") = "<em>" ++ htmlEscape v ++ "</em>") ∧
    (∀ v : String, ∀ c ∈ (htmlEscape v).data,
      c ≠ '<' ∧ c ≠ '>' ∧ c ≠ '"' ∧ c ≠ apos) ∧
    markdown_to_html "*x\n\ny*" = "<p>*x</p><p>y*</p>" := by
  refine ⟨?_, ?_, by decide⟩
  · intro v hv h
    obtain ⟨l⟩ := v
    have hne : l ≠ [] := by
      intro hcontra
      subst hcontra
      exact hv rfl
    have h' : ∀ c ∈ l, c ≠ '*' ∧ c ≠ '_' ∧ c ≠ '\n' := h
    obtain ⟨hstar, hunder⟩ := inline_wrap l hne h'
    exact ⟨congrArg String.mk hstar, congrArg String.mk hunder⟩
  · intro v c hc
    rcases mem_pyEscape hc with ⟨c0, _, hmem⟩
    rcases mem_pyEscapeChar_cases hmem with ⟨rfl, _, f2, f3, f4, f5⟩ | hent
    · exact ⟨f2, f3, f4, f5⟩
    · obtain ⟨_, _, _, g4, g5, g6, g7⟩ := entityChar_facts hent
      exact ⟨g4, g5, g6, g7⟩

/-- Witness for C4 at the fragment `a<b` containing a raw `<`: the emphasis
markers still convert and the `<` appears as `&lt;` inside the tag. -/
theorem c4_escape_before_emphasis_witness :
    inlineStr ("*" ++ "a<b" ++ "*") = "<strong>" ++ htmlEscape "a<b" ++ "</strong>" ∧
    inlineStr ("_" ++ "a<b" ++ "_") = "<em>" ++ htmlEscape "a<b" ++ "</em>" :=
  c4_escape_before_emphasis.1 "a<b" (by decide) (by decide)

theorem pyEscape_no_lt (v : List Char) : ∀ c' ∈ pyEscape v, (c' == '<') = false := by
  intro c' hc'
  rcases mem_pyEscape hc' with ⟨c, _, hmem⟩
  rcases mem_pyEscapeChar_cases hmem with ⟨rfl, _, h2, _⟩ | hent
  · simpa using h2
  · simpa using (entityChar_facts hent).2.2.2.1

theorem ltOk_of_no_lt : ∀ s : List Char, (∀ c ∈ s, (c == '<') = false) → ltOk s = true := by
  intro s
  induction s with
  | nil => intro _; rfl
  | cons c rest ih =>
    intro h
    have hc := h c (List.mem_cons_self c rest)
    simp only [ltOk, hc, Bool.false_eq_true, if_false]
    exact ih fun d hd => h d (List.mem_cons_of_mem c hd)

theorem headSE_cons (c : Char) (t : List Char) :
    headSE (c :: t) = (c == 's' || c == 'e') := rfl

theorem ltHead_cons (c : Char) (t : List Char) :
    ltHead (c :: t) = (c == 's' || c == 'e' || (c == '/' && headSE t)) := rfl

theorem ltOk_cons (c : Char) (t : List Char) :
    ltOk (c :: t) = if c == '<' then ltHead t && ltOk t else ltOk t := rfl

theorem headSE_append {t b : List Char} (h : headSE t = true) : headSE (t ++ b) = true := by
  cases t with
  | nil => exact absurd h (by simp [headSE])
  | cons c r =>
    rw [List.cons_append, headSE_cons]
    rw [headSE_cons] at h
    exact h

theorem ltHead_append {t b : List Char} (h : ltHead t = true) : ltHead (t ++ b) = true := by
  cases t with
  | nil => exact absurd h (by simp [ltHead])
  | cons c r =>
    rw [List.cons_append, ltHead_cons]
    rw [ltHead_cons] at h
    simp only [Bool.or_eq_true, Bool.and_eq_true] at h ⊢
    rcases h with (h | h) | ⟨h1, h2⟩
    · exact Or.inl (Or.inl h)
    · exact Or.inl (Or.inr h)
    · exact Or.inr ⟨h1, headSE_append h2⟩

theorem ltOk_append : ∀ {a b : List Char}, ltOk a = true → ltOk b = true →
    ltOk (a ++ b) = true := by
  intro a
  induction a with
  | nil => intro b _ hb; simpa using hb
  | cons c a' ih =>
    intro b ha hb
    rw [ltOk_cons] at ha
    rw [List.cons_append, ltOk_cons]
    by_cases hc : (c == '<') = true
    · rw [if_pos hc] at ha
      rw [if_pos hc]
      simp only [Bool.and_eq_true] at ha ⊢
      exact ⟨ltHead_append ha.1, ih ha.2 hb⟩
    · rw [if_neg hc] at ha
      rw [if_neg hc]
      exact ih ha hb

theorem headSE_split {x : List Char} {m : Char} {y : List Char}
    (hm1 : (m == 's') = false) (hm2 : (m == 'e') = false)
    (h : headSE (x ++ m :: y) = true) : headSE x = true := by
  cases x with
  | nil =>
    rw [List.nil_append, headSE_cons, hm1, hm2] at h
    exact absurd h (by simp)
  | cons c r =>
    rw [List.cons_append, headSE_cons] at h
    rw [headSE_cons]
    exact h

theorem ltHead_split {x : List Char} {m : Char} {y : List Char}
    (hm1 : (m == 's') = false) (hm2 : (m == 'e') = false) (hm3 : (m == '/') = false)
    (h : ltHead (x ++ m :: y) = true) : ltHead x = true := by
  cases x with
  | nil =>
    rw [List.nil_append, ltHead_cons, hm1, hm2, hm3] at h
    exact absurd h (by simp)
  | cons c r =>
    rw [List.cons_append, ltHead_cons] at h
    rw [ltHead_cons]
    simp only [Bool.or_eq_true, Bool.and_eq_true] at h ⊢
    rcases h with (h | h) | ⟨h1, h2⟩
    · exact Or.inl (Or.inl h)
    · exact Or.inl (Or.inr h)
    · exact Or.inr ⟨h1, headSE_split hm1 hm2 h2⟩

theorem ltOk_split {m : Char} (hm0 : (m == '<') = false) (hm1 : (m == 's') = false)
    (hm2 : (m == 'e') = false) (hm3 : (m == '/') = false) :
    ∀ {x y : List Char}, ltOk (x ++ m :: y) = true → ltOk x = true ∧ ltOk y = true := by
  intro x
  induction x with
  | nil =>
    intro y h
    rw [List.nil_append, ltOk_cons, hm0] at h
    simp only [Bool.false_eq_true, if_false] at h
    exact ⟨rfl, h⟩
  | cons c x' ih =>
    intro y h
    rw [List.cons_append, ltOk_cons] at h
    rw [ltOk_cons]
    by_cases hc : (c == '<') = true
    · rw [if_pos hc] at h
      rw [if_pos hc]
      simp only [Bool.and_eq_true] at h ⊢
      obtain ⟨hh, hrest⟩ := h
      obtain ⟨hx', hy⟩ := ih hrest
      exact ⟨⟨ltHead_split hm1 hm2 hm3 hh, hx'⟩, hy⟩
    · rw [if_neg hc] at h
      rw [if_neg hc]
      obtain ⟨hx', hy⟩ := ih h
      exact ⟨hx', hy⟩

theorem findCloseGo_decomp {m : Char} {dx : Char → Bool} :
    ∀ {t acc res rest' : List Char}, findCloseGo m dx acc t = some (res, rest') →
      ∃ pre, res = acc.reverse ++ pre ∧ t = pre ++ m :: rest' := by
  intro t
  induction t with
  | nil => intro acc res rest' h; exact absurd h (by simp [findCloseGo])
  | cons c t' ih =>
    intro acc res rest' h
    unfold findCloseGo at h
    by_cases hc : c == m
    · rw [if_pos hc] at h
      obtain ⟨h1, h2⟩ := Prod.mk.injEq .. ▸ Option.some.inj h
      refine ⟨[], by simpa using h1.symm, ?_⟩
      have : c = m := by simpa using hc
      simp [this, h2]
    · rw [if_neg hc] at h
      by_cases hdx : dx c = true
      · rw [if_pos hdx] at h
        exact absurd h (by simp)
      · rw [if_neg hdx] at h
        obtain ⟨pre, hres, ht⟩ := ih h
        refine ⟨c :: pre, ?_, by simp [ht]⟩
        simpa using hres

theorem findClose_decomp {m : Char} {dx : Char → Bool} {t inner rest' : List Char}
    (h : findClose m dx t = some (inner, rest')) : t = inner ++ m :: rest' := by
  cases t with
  | nil => exact absurd h (by simp [findClose])
  | cons c t0 =>
    rw [show findClose m dx (c :: t0) =
      (if dx c = true then none else findCloseGo m dx [c] t0) from rfl] at h
    by_cases hdx : dx c = true
    · rw [if_pos hdx] at h
      exact absurd h (by simp)
    · rw [if_neg hdx] at h
      obtain ⟨pre, hres, ht⟩ := findCloseGo_decomp h
      rw [hres]
      simp [ht]

theorem subStar_ltOk (dx : Char → Bool) :
    ∀ (fuel : Nat) (s : List Char), (∀ c ∈ s, (c == '<') = false) →
      ltOk (subEmphF '*' "<strong>".data "</strong>".data dx fuel s) = true := by
  intro fuel
  induction fuel with
  | zero => intro s h; exact ltOk_of_no_lt s h
  | succ n ih =>
    intro s h
    cases s with
    | nil => rfl
    | cons c rest =>
      have hrest : ∀ c' ∈ rest, (c' == '<') = false :=
        fun c' hc' => h c' (List.mem_cons_of_mem c hc')
      have hc0 : (c == '<') = false := h c (List.mem_cons_self c rest)
      by_cases hc : c == '*'
      · rw [show subEmphF '*' "<strong>".data "</strong>".data dx (n + 1) (c :: rest) =
            (if c == '*' then
              match findClose '*' dx rest with
              | some (inner, rest') => "<strong>".data ++ inner ++ "</strong>".data ++
                  subEmphF '*' "<strong>".data "</strong>".data dx n rest'
              | none => c :: subEmphF '*' "<strong>".data "</strong>".data dx n rest
             else c :: subEmphF '*' "<strong>".data "</strong>".data dx n rest) from rfl]
        rw [if_pos hc]
        cases hfc : findClose '*' dx rest with
        | none =>
          simp only [ltOk, hc0, Bool.false_eq_true, if_false]
          exact ih rest hrest
        | some pr =>
          obtain ⟨inner, rest'⟩ := pr
          have hdec := findClose_decomp hfc
          have hinner : ∀ c' ∈ inner, (c' == '<') = false := fun c' hc' =>
            hrest c' (hdec ▸ List.mem_append.2 (Or.inl hc'))
          have hrest' : ∀ c' ∈ rest', (c' == '<') = false := fun c' hc' =>
            hrest c' (hdec ▸ List.mem_append.2 (Or.inr (List.mem_cons_of_mem _ hc')))
          exact ltOk_append (ltOk_append (ltOk_append (by decide)
            (ltOk_of_no_lt inner hinner)) (by decide)) (ih rest' hrest')
      · rw [show subEmphF '*' "<strong>".data "</strong>".data dx (n + 1) (c :: rest) =
            (if c == '*' then
              match findClose '*' dx rest with
              | some (inner, rest') => "<strong>".data ++ inner ++ "</strong>".data ++
                  subEmphF '*' "<strong>".data "</strong>".data dx n rest'
              | none => c :: subEmphF '*' "<strong>".data "</strong>".data dx n rest
             else c :: subEmphF '*' "<strong>".data "</strong>".data dx n rest) from rfl]
        rw [if_neg hc]
        simp only [ltOk, hc0, Bool.false_eq_true, if_false]
        exact ih rest hrest

theorem subEmphF_cons (m : Char) (ot ct : List Char) (dx : Char → Bool) (n : Nat)
    (c : Char) (rest : List Char) :
    subEmphF m ot ct dx (n + 1) (c :: rest) =
      if c == m then
        match findClose m dx rest with
        | some (inner, rest') => ot ++ inner ++ ct ++ subEmphF m ot ct dx n rest'
        | none => c :: subEmphF m ot ct dx n rest
      else c :: subEmphF m ot ct dx n rest := rfl

theorem headSE_subEmphF (ot ct : List Char) (dx : Char → Bool) :
    ∀ (fuel : Nat) (t : List Char), headSE t = true →
      headSE (subEmphF '_' ot ct dx fuel t) = true := by
  intro fuel t h
  cases fuel with
  | zero => exact h
  | succ n =>
    cases t with
    | nil => exact absurd h (by simp [headSE])
    | cons c t2 =>
      rw [headSE_cons] at h
      rw [subEmphF_cons]
      simp only [Bool.or_eq_true] at h
      rcases h with h | h
      · have hc : c = 's' := by simpa using h
        subst hc
        rw [if_neg (by decide), headSE_cons]
        simp
      · have hc : c = 'e' := by simpa using h
        subst hc
        rw [if_neg (by decide), headSE_cons]
        simp

theorem ltHead_subEmphF (ot ct : List Char) (dx : Char → Bool) :
    ∀ (fuel : Nat) (t : List Char), ltHead t = true →
      ltHead (subEmphF '_' ot ct dx fuel t) = true := by
  intro fuel t h
  cases fuel with
  | zero => exact h
  | succ n =>
    cases t with
    | nil => exact absurd h (by simp [ltHead])
    | cons c t2 =>
      rw [ltHead_cons] at h
      rw [subEmphF_cons]
      simp only [Bool.or_eq_true, Bool.and_eq_true] at h
      rcases h with (h | h) | ⟨h1, h2⟩
      · have hc : c = 's' := by simpa using h
        subst hc
        rw [if_neg (by decide), ltHead_cons]
        simp
      · have hc : c = 'e' := by simpa using h
        subst hc
        rw [if_neg (by decide), ltHead_cons]
        simp
      · have hc : c = '/' := by simpa using h1
        subst hc
        rw [if_neg (by decide), ltHead_cons]
        have hse := headSE_subEmphF ot ct dx n t2 h2
        simp [hse]

theorem subEm_ltOk (dx : Char → Bool) :
    ∀ (fuel : Nat) (s : List Char), ltOk s = true →
      ltOk (subEmphF '_' "<em>".data "</em>".data dx fuel s) = true := by
  intro fuel
  induction fuel with
  | zero => intro s h; exact h
  | succ n ih =>
    intro s h
    cases s with
    | nil => rfl
    | cons c rest =>
      rw [subEmphF_cons]
      by_cases hc : (c == '_') = true
      · have hceq : c = '_' := by simpa using hc
        subst hceq
        rw [if_pos hc]
        have hrest : ltOk rest = true := by
          rw [ltOk_cons, if_neg (by decide)] at h
          exact h
        cases hfc : findClose '_' dx rest with
        | none =>
          rw [ltOk_cons, if_neg (by decide)]
          exact ih rest hrest
        | some pr =>
          obtain ⟨inner, rest'⟩ := pr
          have hdec := findClose_decomp hfc
          rw [hdec] at hrest
          obtain ⟨hinner, hrest'⟩ :=
            ltOk_split (by decide) (by decide) (by decide) (by decide) hrest
          exact ltOk_append (ltOk_append (ltOk_append (by decide) hinner) (by decide))
            (ih rest' hrest')
      · rw [if_neg hc]
        by_cases hlt : (c == '<') = true
        · rw [ltOk_cons, if_pos hlt] at h
          simp only [Bool.and_eq_true] at h
          rw [ltOk_cons, if_pos hlt]
          simp only [Bool.and_eq_true]
          exact ⟨ltHead_subEmphF _ _ dx n rest h.1, ih rest h.2⟩
        · rw [ltOk_cons, if_neg hlt] at h
          rw [ltOk_cons, if_neg hlt]
          exact ih rest h

theorem ltOk_inline (v : List Char) : ltOk (inline v) = true := by
  unfold inline subEmph
  exact subEm_ltOk pyDotExcl _ _ (subStar_ltOk pyDotExcl _ _ (pyEscape_no_lt v))

theorem ulScan_cons (c : Char) (rest : List Char) (d : Nat) :
    ulScan (c :: rest) d =
      if c == '<' && leadsWith "ul>".data rest then (d == 0) && ulScan rest 1
      else if c == '<' && leadsWith "/ul>".data rest then (d == 1) && ulScan rest 0
      else if c == '<' && leadsWith "li>".data rest then (d == 1) && ulScan rest d
      else ulScan rest d := rfl

theorem ulScan_step_not_lt {c : Char} (h : (c == '<') = false)
    (rest : List Char) (d : Nat) : ulScan (c :: rest) d = ulScan rest d := by
  rw [ulScan_cons]
  simp [h]

theorem ulScan_skip : ∀ (n : Nat) (X : List Char), X.length ≤ n → ltOk X = true →
    ∀ (b : List Char) (d : Nat), ulScan (X ++ b) d = ulScan b d := by
  intro n
  induction n with
  | zero =>
    intro X hlen _ b d
    have hX : X = [] := List.eq_nil_of_length_eq_zero (Nat.le_zero.1 hlen)
    subst hX
    rfl
  | succ n ih =>
    intro X hlen hok b d
    cases X with
    | nil => rfl
    | cons c X'ᵢ =>
      by_cases hc : (c == '<') = true
      · have hceq : c = '<' := by simpa using hc
        subst hceq
        rw [ltOk_cons, if_pos hc] at hok
        simp only [Bool.and_eq_true] at hok
        obtain ⟨hh, hX'⟩ := hok
        cases X'ᵢ with
        | nil => exact absurd hh (by simp [ltHead])
        | cons c2 X2 =>
          rw [ltHead_cons] at hh
          simp only [Bool.or_eq_true, Bool.and_eq_true] at hh
          rcases hh with (h2 | h2) | ⟨h2, h3⟩
          · have hc2 : c2 = 's' := by simpa using h2
            subst hc2
            show ulScan ('<' :: 's' :: (X2 ++ b)) d = ulScan b d
            rw [show ulScan ('<' :: 's' :: (X2 ++ b)) d = ulScan (X2 ++ b) d from rfl]
            have hX2 : ltOk X2 = true := by
              rw [ltOk_cons, if_neg (by decide)] at hX'
              exact hX'
            have hlen2 : X2.length ≤ n := by
              simp only [List.length_cons] at hlen
              omega
            exact ih X2 hlen2 hX2 b d
          · have hc2 : c2 = 'e' := by simpa using h2
            subst hc2
            show ulScan ('<' :: 'e' :: (X2 ++ b)) d = ulScan b d
            rw [show ulScan ('<' :: 'e' :: (X2 ++ b)) d = ulScan (X2 ++ b) d from rfl]
            have hX2 : ltOk X2 = true := by
              rw [ltOk_cons, if_neg (by decide)] at hX'
              exact hX'
            have hlen2 : X2.length ≤ n := by
              simp only [List.length_cons] at hlen
              omega
            exact ih X2 hlen2 hX2 b d
          · have hc2 : c2 = '/' := by simpa using h2
            subst hc2
            have hX2 : ltOk X2 = true := by
              rw [ltOk_cons, if_neg (by decide)] at hX'
              exact hX'
            cases X2 with
            | nil => exact absurd h3 (by simp [headSE])
            | cons c3 X3 =>
              rw [headSE_cons] at h3
              simp only [Bool.or_eq_true] at h3
              have hX3 : ltOk X3 = true := by
                rcases h3 with h3 | h3
                · have : c3 = 's' := by simpa using h3
                  subst this
                  rw [ltOk_cons, if_neg (by decide)] at hX2
                  exact hX2
                · have : c3 = 'e' := by simpa using h3
                  subst this
                  rw [ltOk_cons, if_neg (by decide)] at hX2
                  exact hX2
              have hlen3 : X3.length ≤ n := by
                simp only [List.length_cons] at hlen
                omega
              rcases h3 with h3 | h3
              · have hc3 : c3 = 's' := by simpa using h3
                subst hc3
                show ulScan ('<' :: '/' :: 's' :: (X3 ++ b)) d = ulScan b d
                rw [show ulScan ('<' :: '/' :: 's' :: (X3 ++ b)) d =
                  ulScan (X3 ++ b) d from rfl]
                exact ih X3 hlen3 hX3 b d
              · have hc3 : c3 = 'e' := by simpa using h3
                subst hc3
                show ulScan ('<' :: '/' :: 'e' :: (X3 ++ b)) d = ulScan b d
                rw [show ulScan ('<' :: '/' :: 'e' :: (X3 ++ b)) d =
                  ulScan (X3 ++ b) d from rfl]
                exact ih X3 hlen3 hX3 b d
      · show ulScan (c :: (X'ᵢ ++ b)) d = ulScan b d
        rw [ulScan_step_not_lt (by simpa using hc)]
        have hX' : ltOk X'ᵢ = true := by
          rw [ltOk_cons, if_neg hc] at hok
          exact hok
        have hlen' : X'ᵢ.length ≤ n := by
          simp only [List.length_cons] at hlen
          omega
        exact ih X'ᵢ hlen' hX' b d

theorem flushPara_scan (para : List (List Char)) (b : List Char) (d : Nat) :
    ulScan ((flushPara inline para).flatten ++ b) d = ulScan b d := by
  by_cases hp : para.isEmpty
  · simp [flushPara, hp]
  · rw [show flushPara inline para =
      ["<p>".data ++ inline (List.intercalate [' '] para) ++ "</p>".data] from by
        simp [flushPara, hp]]
    rw [List.flatten_cons, List.flatten_nil, List.append_nil,
      List.append_assoc, List.append_assoc]
    calc ulScan ("<p>".data ++ (inline (List.intercalate [' '] para) ++
            ("</p>".data ++ b))) d
        = ulScan (inline (List.intercalate [' '] para) ++ ("</p>".data ++ b)) d := rfl
      _ = ulScan ("</p>".data ++ b) d :=
          ulScan_skip (inline (List.intercalate [' '] para)).length _ le_rfl
            (ltOk_inline _) _ _
      _ = ulScan b d := rfl

theorem ulScan_li_part (X b : List Char) (d : Nat) (hX : ltOk X = true) :
    ulScan (("<li>".data ++ X ++ "</li>".data) ++ b) d = ((d == 1) && ulScan b d) := by
  rw [List.append_assoc, List.append_assoc]
  calc ulScan ("<li>".data ++ (X ++ ("</li>".data ++ b))) d
      = ((d == 1) && ulScan (X ++ ("</li>".data ++ b)) d) := rfl
    _ = ((d == 1) && ulScan ("</li>".data ++ b) d) := by
        rw [ulScan_skip X.length X le_rfl hX]
    _ = ((d == 1) && ulScan b d) := rfl

theorem mdGo_ulScan :
    ∀ (lines : List (List Char)) (para : List (List Char)) (inList : Bool),
      ulScan (mdGo inline pyStrip para inList lines).flatten
        (if inList then 1 else 0) = true := by
  intro lines
  induction lines with
  | nil =>
    intro para inList
    show ulScan (flushPara inline para ++ closeListTag inList).flatten _ = true
    rw [List.flatten_append]
    have hfp := flushPara_scan para (closeListTag inList).flatten (if inList then 1 else 0)
    rw [hfp]
    cases inList with
    | true => rfl
    | false => rfl
  | cons raw rest ih =>
    intro para inList
    by_cases h1 : (pyStrip raw).isEmpty
    · rw [show mdGo inline pyStrip para inList (raw :: rest) =
          flushPara inline para ++ closeListTag inList ++
            mdGo inline pyStrip [] false rest from by
        simp [mdGo, h1]]
      rw [List.flatten_append, List.flatten_append, List.append_assoc, flushPara_scan]
      have hF : ulScan (mdGo inline pyStrip [] false rest).flatten 0 = true := by
        simpa using ih [] false
      cases inList with
      | true =>
        rw [show (if (true = true) then (1 : Nat) else 0) = 1 from rfl]
        rw [show closeListTag true = ["</ul>".data] from rfl,
          List.flatten_cons, List.flatten_nil, List.append_nil]
        have hstep : ∀ W : List Char,
            ulScan ("</ul>".data ++ W) 1 = ((1 == 1) && ulScan W 0) := fun W => rfl
        rw [hstep]
        simpa using hF
      | false =>
        rw [show (if (false = true) then (1 : Nat) else 0) = 0 from rfl]
        rw [show closeListTag false = [] from rfl, List.flatten_nil, List.nil_append]
        exact hF
    · by_cases h2 : leadsWith "- ".data (pyStrip raw) = true
      · rw [show mdGo inline pyStrip para inList (raw :: rest) =
            flushPara inline para ++ (if inList then [] else ["<ul>".data]) ++
              ["<li>".data ++ inline ((pyStrip raw).drop 2) ++ "</li>".data] ++
              mdGo inline pyStrip [] true rest from by
          simp [mdGo, h1, h2]]
        rw [List.flatten_append, List.flatten_append, List.flatten_append,
          List.append_assoc, List.append_assoc, flushPara_scan]
        rw [List.flatten_cons, List.flatten_nil, List.append_nil]
        have hX := ltOk_inline ((pyStrip raw).drop 2)
        have hF : ulScan (mdGo inline pyStrip [] true rest).flatten 1 = true := by
          simpa using ih [] true
        cases inList with
        | true =>
          rw [show (if (true = true) then (1 : Nat) else 0) = 1 from rfl]
          rw [show (if (true = true) then ([] : List (List Char))
            else ["<ul>".data]) = [] from rfl]
          rw [List.flatten_nil, List.nil_append]
          rw [ulScan_li_part _ _ _ hX]
          simpa using hF
        | false =>
          rw [show (if (false = true) then (1 : Nat) else 0) = 0 from rfl]
          rw [show (if (false = true) then ([] : List (List Char))
            else ["<ul>".data]) = ["<ul>".data] from rfl]
          rw [List.flatten_cons, List.flatten_nil, List.append_nil]
          have hstep : ∀ W : List Char,
              ulScan ("<ul>".data ++ W) 0 = ((0 == 0) && ulScan W 1) := fun W => rfl
          rw [hstep]
          rw [ulScan_li_part _ _ _ hX]
          simpa using hF
      · rw [show mdGo inline pyStrip para inList (raw :: rest) =
            closeListTag inList ++
              mdGo inline pyStrip (para ++ [pyStrip raw]) false rest from by
          simp [mdGo, h1, h2]]
        rw [List.flatten_append]
        have hF : ulScan
            (mdGo inline pyStrip (para ++ [pyStrip raw]) false rest).flatten 0 = true := by
          simpa using ih (para ++ [pyStrip raw]) false
        cases inList with
        | true =>
          rw [show (if (true = true) then (1 : Nat) else 0) = 1 from rfl]
          rw [show closeListTag true = ["</ul>".data] from rfl,
            List.flatten_cons, List.flatten_nil, List.append_nil]
          have hstep : ∀ W : List Char,
              ulScan ("</ul>".data ++ W) 1 = ((1 == 1) && ulScan W 0) := fun W => rfl
          rw [hstep]
          simpa using hF
        | false =>
          rw [show (if (false = true) then (1 : Nat) else 0) = 0 from rfl]
          rw [show closeListTag false = [] from rfl, List.flatten_nil, List.nil_append]
          exact hF

/-- Claim C9: the HTML produced by `markdown_to_html` always has disciplined
list tags — scanning the output left to right, `<ul>` occurs only outside a
list, `</ul>` only inside one and `<li>` only inside one, and the scan ends
with the list closed; consequently `<ul>` and `</ul>` occurrences strictly
alternate (equal counts), every `<li>` lies between a `<ul>` and its
matching `</ul>`, and a list open at end of input is closed before the
result is returned. -/
theorem c9_list_tags_balanced (text : String) :
    ulScan (markdown_to_html text).data 0 = true := by
  have hdata : (markdown_to_html text).data =
      (mdGo inline pyStrip [] false (pySplitlines text.data)).flatten := rfl
  rw [hdata]
  simpa using mdGo_ulScan (pySplitlines text.data) [] false

end CapturesHtml
